import Mathlib

/-!
# Verification of the configuration composition engine

Shallow embedding of the option-merge / constructor-options-resolution core
of the repository (src/core/util/options.js, src/core/instance/init.js) and
proofs about it.

Conventions used throughout:
* JavaScript functions are identified by a natural-number identity (`Nat`);
  reference equality on functions is equality of identities.
* Mutating JavaScript code is embedded either as pure functional updates
  (when reference identity is irrelevant to the property) or against an
  explicit heap of objects addressed by `Nat` (when reference identity and
  in-place mutation are the point of the property).
* Helper functions from `shared/util.js` and `core/observer/index.js`
  (`camelize`, `capitalize`, `extend`, `hasOwn`, `isPlainObject`, `set`) are
  not part of the given sources; they are modelled from the spec where used.
-/

namespace VueMerge

/-! ## Association-list primitives

JavaScript plain objects are embedded as association lists from string keys
to values, preserving insertion order (the order `for ... in` enumerates
string keys).  `alookup` finds the value for a key, `aset` models
`obj[key] = v`: it overwrites an existing entry in place, otherwise appends
the new entry at the end, exactly like JS property assignment. -/

def alookup {α : Type} : List (String × α) → String → Option α
  | [], _ => none
  | (k, v) :: rest, key => if k = key then some v else alookup rest key

def aset {α : Type} : List (String × α) → String → α → List (String × α)
  | [], key, v => [(key, v)]
  | (k, w) :: rest, key, v =>
      if k = key then (k, v) :: rest else (k, w) :: aset rest key v

def akeys {α : Type} (l : List (String × α)) : List String :=
  l.map Prod.fst

@[simp] theorem alookup_nil {α : Type} (k : String) :
    alookup ([] : List (String × α)) k = none := rfl

@[simp] theorem alookup_cons {α : Type} (k key : String) (v : α) (rest : List (String × α)) :
    alookup ((k, v) :: rest) key = if k = key then some v else alookup rest key := rfl

@[simp] theorem aset_nil {α : Type} (k : String) (v : α) :
    aset ([] : List (String × α)) k v = [(k, v)] := rfl

@[simp] theorem aset_cons {α : Type} (k key : String) (w v : α) (rest : List (String × α)) :
    aset ((k, w) :: rest) key v =
      if k = key then (k, v) :: rest else (k, w) :: aset rest key v := rfl

theorem alookup_aset {α : Type} (l : List (String × α)) (k : String) (v : α) :
    alookup (aset l k v) k = some v := by
  induction l with
  | nil => simp [aset, alookup]
  | cons hd tl ih =>
      obtain ⟨k', w⟩ := hd
      by_cases h : k' = k
      · subst h; simp [aset, alookup]
      · simp [aset, alookup, h, ih]

theorem alookup_aset_ne {α : Type} (l : List (String × α)) (k k' : String) (v : α)
    (h : k ≠ k') : alookup (aset l k v) k' = alookup l k' := by
  induction l with
  | nil => simp [aset, alookup, h]
  | cons hd tl ih =>
      obtain ⟨k₀, w⟩ := hd
      by_cases h₀ : k₀ = k
      · subst h₀; simp [aset, alookup, h]
      · simp [aset, alookup, h₀, ih]

/-! ## Deduplication keeping the first occurrence

`dedupeHooks` is the literal embedding of `dedupeHooks` from
src/core/util/options.js: walk the list, pushing an element only when it has
not been pushed before (`res.indexOf(hooks[i]) === -1`).

`dedupKeepFirst` states the same operation the way the spec words it:
"deduplicated by identity, keeping first occurrence"; keep the head, then
deduplicate the tail with all copies of the head removed. -/

def dedupeHooksAux {α : Type} [DecidableEq α] : List α → List α → List α
  | res, [] => res
  | res, x :: xs =>
      if x ∈ res then dedupeHooksAux res xs else dedupeHooksAux (res ++ [x]) xs

def dedupeHooks {α : Type} [DecidableEq α] (hooks : List α) : List α :=
  dedupeHooksAux [] hooks

def dedupKeepFirst {α : Type} [DecidableEq α] : List α → List α
  | [] => []
  | x :: xs => x :: dedupKeepFirst (xs.filter (fun y => y ≠ x))
termination_by l => l.length
decreasing_by
  simp only [List.length_cons]
  exact Nat.lt_succ_of_le (List.length_filter_le _ _)

theorem dedupeHooksAux_eq {α : Type} [DecidableEq α] (l : List α) :
    ∀ res : List α, dedupeHooksAux res l = res ++ dedupKeepFirst (l.filter (fun y => y ∉ res)) := by
  induction l with
  | nil => intro res; simp [dedupeHooksAux, dedupKeepFirst]
  | cons x xs ih =>
      intro res
      by_cases hx : x ∈ res
      · have : (List.filter (fun y => decide (y ∉ res)) (x :: xs)) =
            List.filter (fun y => decide (y ∉ res)) xs := by
          simp [List.filter, hx]
        rw [dedupeHooksAux, if_pos hx, ih res, this]
      · rw [dedupeHooksAux, if_neg hx, ih (res ++ [x])]
        have hfilter : List.filter (fun y => decide (y ∉ res ++ [x])) xs =
            (List.filter (fun y => decide (y ∉ res)) xs).filter (fun y => decide (y ≠ x)) := by
          rw [List.filter_filter]
          apply List.filter_congr
          intro a _
          by_cases hax : a = x
          · subst hax; simp
          · by_cases har : a ∈ res <;> simp [hax, har]
        have hhead : List.filter (fun y => decide (y ∉ res)) (x :: xs) =
            x :: List.filter (fun y => decide (y ∉ res)) xs := by
          simp [List.filter, hx]
        rw [hfilter, hhead, dedupKeepFirst]
        simp

theorem dedupeHooks_eq_dedupKeepFirst {α : Type} [DecidableEq α] (l : List α) :
    dedupeHooks l = dedupKeepFirst l := by
  have h := dedupeHooksAux_eq l []
  simpa [dedupeHooks] using h

theorem dedupKeepFirst_sublist {α : Type} [DecidableEq α] (l : List α) :
    (dedupKeepFirst l).Sublist l := by
  induction l using dedupKeepFirst.induct with
  | case1 => simp [dedupKeepFirst]
  | case2 x xs ih =>
      rw [dedupKeepFirst]
      exact (ih.trans (List.filter_sublist _)).cons₂ x

theorem dedupKeepFirst_nodup {α : Type} [DecidableEq α] (l : List α) :
    (dedupKeepFirst l).Nodup := by
  induction l using dedupKeepFirst.induct with
  | case1 => simp [dedupKeepFirst]
  | case2 x xs ih =>
      rw [dedupKeepFirst]
      refine List.Nodup.cons ?_ ih
      intro hx
      have hsub : dedupKeepFirst (xs.filter (fun y => y ≠ x)) ⊆ xs.filter (fun y => y ≠ x) := by
        intro a ha
        exact (dedupKeepFirst_sublist _).subset ha
      have := hsub hx
      simp at this

theorem mem_dedupKeepFirst {α : Type} [DecidableEq α] (a : α) (l : List α) :
    a ∈ dedupKeepFirst l ↔ a ∈ l := by
  induction l using dedupKeepFirst.induct with
  | case1 => simp [dedupKeepFirst]
  | case2 x xs ih =>
      rw [dedupKeepFirst]
      by_cases hax : a = x
      · subst hax; simp
      · simp only [List.mem_cons, ih, List.mem_filter]
        constructor
        · rintro (h | ⟨h, _⟩)
          · exact Or.inl h
          · exact Or.inr h
        · rintro (h | h)
          · exact Or.inl h
          · exact Or.inr ⟨h, by simpa using hax⟩

/-! ## Lifecycle hook merging (`mergeHook`, src/core/util/options.js)

Hooks are JavaScript functions compared by identity; they are embedded as
their `Nat` identities.  A parent hook value, when present, is always an
ordered sequence (it is the output of a previous merge); a child hook value
is either a bare callable or a sequence. -/

/-- A child lifecycle-hook option value: a bare callable or an ordered
sequence of callables. -/
inductive HookChild where
  | single (f : Nat)
  | seq (fs : List Nat)
  deriving DecidableEq

/-- `Array.isArray(childVal) ? childVal : [childVal]`: the child hook value
normalized to an ordered sequence. -/
def hookChildToList : HookChild → List Nat
  | .single f => [f]
  | .seq fs => fs

/-- Embedding of `mergeHook`:
`res = childVal ? (parentVal ? parentVal.concat(childVal) : (isArray childVal ? childVal : [childVal])) : parentVal`,
then `res ? dedupeHooks(res) : res`.  `Array.prototype.concat` appends the
elements of an array argument and a non-array argument as a single
element, which is `p ++ hookChildToList c` in both cases. -/
def mergeHook (parentVal : Option (List Nat)) (childVal : Option HookChild) :
    Option (List Nat) :=
  let res : Option (List Nat) :=
    match childVal with
    | some c =>
        match parentVal with
        | some p => some (p ++ hookChildToList c)
        | none => some (hookChildToList c)
    | none => parentVal
  match res with
  | some l => some (dedupeHooks l)
  | none => none

/-! ## Watcher merging (`strats.watch`, src/core/util/options.js)

A watch option object maps watched keys to either a single handler or an
ordered sequence of handlers (handlers compared by identity, embedded as
`Nat`).  The Firefox-only `nativeWatch` workaround guards against
`Object.prototype.watch`, which does not exist in the embedding, so those
two guards are identity here and are omitted. -/

/-- A value in a watch option object: a single handler or an ordered
sequence of handlers. -/
inductive WVal where
  | fnh (f : Nat)
  | arrh (fs : List Nat)
  deriving DecidableEq

/-- Coercion of a watch value to a handler sequence (`[parent]` wrapping /
`concat` flattening). -/
def wvalToList : WVal → List Nat
  | .fnh f => [f]
  | .arrh fs => fs

/-- The result of `strats.watch`: either `Object.create(parentVal || null)`
(a fresh empty object delegating to the parent, when the child is absent) or
a plain object. -/
inductive WatchRes where
  | protoObj (parent : Option (List (String × WVal)))
  | plain (o : List (String × WVal))
  deriving DecidableEq

/-- One iteration of the `for (const key in childVal)` loop of `strats.watch`:
`let parent = ret[key]; if (parent && !isArray(parent)) parent = [parent];
ret[key] = parent ? parent.concat(child) : (isArray(child) ? child : [child])`. -/
def watchStep (ret : List (String × WVal)) (kv : String × WVal) : List (String × WVal) :=
  match alookup ret kv.1 with
  | some pv => aset ret kv.1 (.arrh (wvalToList pv ++ wvalToList kv.2))
  | none =>
      match kv.2 with
      | .arrh fs => aset ret kv.1 (.arrh fs)
      | .fnh f => aset ret kv.1 (.arrh [f])

/-- Embedding of `strats.watch`: if no child, `Object.create(parentVal || null)`;
if no parent, `childVal` returned as-is; otherwise `ret = extend({}, parentVal)`
followed by the per-child-key loop. -/
def mergeWatch : Option (List (String × WVal)) → Option (List (String × WVal)) → WatchRes
  | parentVal, none => .protoObj parentVal
  | none, some c => .plain c
  | some p, some c => .plain (c.foldl watchStep p)

/-- Coercion of an optional watch value to a handler sequence (absent means
no parent handlers). -/
def wvalOptToList : Option WVal → List Nat
  | some pv => wvalToList pv
  | none => []

@[simp] theorem akeys_nil {α : Type} : akeys ([] : List (String × α)) = [] := rfl

@[simp] theorem akeys_cons {α : Type} (kv : String × α) (rest : List (String × α)) :
    akeys (kv :: rest) = kv.1 :: akeys rest := rfl

theorem alookup_watchStep_ne (ret : List (String × WVal)) (kv : String × WVal) (k : String)
    (h : kv.1 ≠ k) : alookup (watchStep ret kv) k = alookup ret k := by
  cases hpv : alookup ret kv.1 with
  | none => cases hcv : kv.2 <;> simp [watchStep, hpv, hcv, alookup_aset_ne _ _ _ _ h]
  | some pv => simp [watchStep, hpv, alookup_aset_ne _ _ _ _ h]

theorem alookup_foldl_watchStep_not_mem (c : List (String × WVal))
    (ret : List (String × WVal)) (k : String) (h : k ∉ akeys c) :
    alookup (c.foldl watchStep ret) k = alookup ret k := by
  induction c generalizing ret with
  | nil => rfl
  | cons kv rest ih =>
      simp only [akeys_cons, List.mem_cons, not_or] at h
      rw [List.foldl_cons, ih _ h.2, alookup_watchStep_ne _ _ _ (fun he => h.1 he.symm)]

theorem alookup_foldl_watchStep_mem (c : List (String × WVal)) (ret : List (String × WVal))
    (hc : (akeys c).Nodup) (k : String) (cv : WVal) (hmem : (k, cv) ∈ c) :
    alookup (c.foldl watchStep ret) k =
      some (.arrh (wvalOptToList (alookup ret k) ++ wvalToList cv)) := by
  induction c generalizing ret with
  | nil => cases hmem
  | cons kv rest ih =>
      rw [List.foldl_cons]
      simp only [akeys_cons, List.nodup_cons] at hc
      rcases List.mem_cons.mp hmem with heq | hrest
      · have hkv : kv = (k, cv) := heq.symm
        subst hkv
        have hnotin : k ∉ akeys rest := hc.1
        rw [alookup_foldl_watchStep_not_mem rest _ k hnotin]
        cases hpv : alookup ret k with
        | some pv => simp [watchStep, hpv, alookup_aset, wvalOptToList]
        | none =>
            cases cv <;>
              simp [watchStep, hpv, alookup_aset, wvalOptToList, wvalToList]
      · have hkmem : k ∈ akeys rest := by
          simpa [akeys] using List.mem_map_of_mem Prod.fst hrest
        have hk1 : kv.1 ≠ k := fun he => hc.1 (he ▸ hkmem)
        rw [ih _ hc.2 hrest, alookup_watchStep_ne _ _ _ hk1]

/-! ## Claim theorems: C4 and C8 -/

/-- **C4**: merging a parent lifecycle-hook sequence with a present child
hook value (a bare callable wrapped as a one-element sequence) yields the
parent sequence followed by the child sequence — just the child sequence
when the parent is absent — deduplicated by identity keeping the first
occurrence: the result is an order-preserving subsequence of
parent-then-child (ancestor before descendant), contains exactly the hooks
of both sides, and each hook occurs in it exactly once. -/
theorem mergeHook_parent_first_dedup (p : List Nat) (c : HookChild) :
    mergeHook (some p) (some c) = some (dedupKeepFirst (p ++ hookChildToList c)) ∧
    mergeHook none (some c) = some (dedupKeepFirst (hookChildToList c)) ∧
    (dedupKeepFirst (p ++ hookChildToList c)).Sublist (p ++ hookChildToList c) ∧
    (∀ f, f ∈ dedupKeepFirst (p ++ hookChildToList c) ↔ f ∈ p ++ hookChildToList c) ∧
    (∀ f, f ∈ p ++ hookChildToList c →
      (dedupKeepFirst (p ++ hookChildToList c)).count f = 1) := by
  refine ⟨?_, ?_, dedupKeepFirst_sublist _, fun f => mem_dedupKeepFirst f _, ?_⟩
  · simp [mergeHook, dedupeHooks_eq_dedupKeepFirst]
  · simp [mergeHook, dedupeHooks_eq_dedupKeepFirst]
  · intro f hf
    exact List.count_eq_one_of_mem (dedupKeepFirst_nodup _) ((mem_dedupKeepFirst f _).mpr hf)

/-- Witness for C4 at the spec's own example: ancestor hooks `[a, b]` with
the child declaring `a` again yield `[a, b]` — no duplicate, ancestor order
kept; the dedup-count fact is discharged at hook `a`. -/
theorem mergeHook_parent_first_dedup_witness :
    mergeHook (some [1, 2]) (some (HookChild.single 1)) = some [1, 2] ∧
    (dedupKeepFirst ([1, 2] ++ hookChildToList (HookChild.single 1))).count 1 = 1 := by
  have h := mergeHook_parent_first_dedup [1, 2] (HookChild.single 1)
  refine ⟨?_, h.2.2.2.2 1 (by decide)⟩
  rw [h.1, ← dedupeHooks_eq_dedupKeepFirst]
  decide

/-- **C8 counterexample**: with parent `{a: f1}` and child `{b: f2}` both
present (and also when the parent is absent), the merged watch object binds
the parent-only key `a` to the bare handler `f1`, not to a handler
sequence — refuting that every watched key of the merged result maps to an
ordered sequence of handlers. -/
theorem mergeWatch_counterexample_C8 :
    mergeWatch (some [("a", .fnh 1)]) (some [("b", .fnh 2)]) =
      .plain [("a", .fnh 1), ("b", .arrh [2])] ∧
    alookup [("a", WVal.fnh 1), ("b", WVal.arrh [2])] "a" = some (.fnh 1) ∧
    (∀ fs, WVal.fnh 1 ≠ WVal.arrh fs) := by
  refine ⟨by decide, by decide, fun fs => by simp⟩

/-- **C8 amended**: when parent and child watch objects are both present,
the merged result maps each key declared by the child to the parent's
handler(s) for that key (coerced to a sequence if singular, empty if
absent) concatenated parent-first with the child's handler(s) (also
coerced); keys present only in the parent keep the parent's value
unchanged (possibly a bare handler).  When the child is absent the result
is a fresh empty object delegating to the parent; when the parent is
absent the child object is returned unchanged. -/
theorem mergeWatch_amended (p c : List (String × WVal)) (hc : (akeys c).Nodup) :
    (∀ k cv, (k, cv) ∈ c →
      alookup ((c.foldl watchStep p)) k =
        some (.arrh (wvalOptToList (alookup p k) ++ wvalToList cv))) ∧
    (∀ k, k ∉ akeys c → alookup (c.foldl watchStep p) k = alookup p k) ∧
    mergeWatch (some p) (some c) = .plain (c.foldl watchStep p) ∧
    mergeWatch (some p) none = .protoObj (some p) ∧
    mergeWatch none (some c) = .plain c := by
  refine ⟨?_, ?_, rfl, rfl, rfl⟩
  · intro k cv hmem
    exact alookup_foldl_watchStep_mem c p hc k cv hmem
  · intro k hk
    exact alookup_foldl_watchStep_not_mem c p k hk

/-- Witness for the amended C8 at a concrete input: parent
`{w: f1, only: f9}`, child `{w: [f2, f3], fresh: f4}`. -/
theorem mergeWatch_amended_witness :
    alookup ([("w", WVal.arrh [2, 3]), ("fresh", WVal.fnh 4)].foldl watchStep
        [("w", WVal.fnh 1), ("only", WVal.fnh 9)]) "w" =
      some (.arrh ([1] ++ [2, 3])) ∧
    alookup ([("w", WVal.arrh [2, 3]), ("fresh", WVal.fnh 4)].foldl watchStep
        [("w", WVal.fnh 1), ("only", WVal.fnh 9)]) "only" =
      some (.fnh 9) := by
  have h := mergeWatch_amended [("w", WVal.fnh 1), ("only", WVal.fnh 9)]
    [("w", WVal.arrh [2, 3]), ("fresh", WVal.fnh 4)] (by decide)
  refine ⟨?_, ?_⟩
  · have hw := h.1 "w" (WVal.arrh [2, 3]) (by decide)
    rw [hw]
    decide
  · have ho := h.2.1 "only" (by decide)
    rw [ho]
    decide


/-! ## State-factory merging (`mergeData` / `mergeDataOrFn`, src/core/util/options.js)

Data objects are embedded as trees: `undefined`, opaque non-object values
(identified by `Nat`; all modelled truthy), and plain keyed structures.  The
JavaScript `toVal !== fromVal` guard is reference inequality; it is embedded
as structural inequality, which is observationally equivalent here: merging
a plain object into an identical one adds no key and changes no value. -/

/-- A data value: `undefined`, an opaque non-object value, or a plain keyed
structure (`isPlainObject`). -/
inductive DVal where
  | undef
  | atom (n : Nat)
  | pobj (fields : List (String × DVal))

def DVal.deq : (a b : DVal) → Decidable (a = b)
  | .undef, .undef => isTrue rfl
  | .undef, .atom _ => isFalse (by intro h; cases h)
  | .undef, .pobj _ => isFalse (by intro h; cases h)
  | .atom _, .undef => isFalse (by intro h; cases h)
  | .atom a, .atom b =>
      if h : a = b then isTrue (by rw [h]) else isFalse (by intro hh; cases hh; exact h rfl)
  | .atom _, .pobj _ => isFalse (by intro h; cases h)
  | .pobj _, .undef => isFalse (by intro h; cases h)
  | .pobj _, .atom _ => isFalse (by intro h; cases h)
  | .pobj f, .pobj g =>
      match deqL f g with
      | isTrue h => isTrue (by rw [h])
      | isFalse h => isFalse (by intro hh; cases hh; exact h rfl)
where
  deqL : (xs ys : List (String × DVal)) → Decidable (xs = ys)
    | [], [] => isTrue rfl
    | [], _ :: _ => isFalse (by intro h; cases h)
    | _ :: _, [] => isFalse (by intro h; cases h)
    | (k, v) :: r, (k', v') :: r' =>
        if hk : k = k' then
          match DVal.deq v v', deqL r r' with
          | isTrue hv, isTrue hr => isTrue (by rw [hk, hv, hr])
          | isFalse hv, _ =>
              isFalse (by intro h; injection h with h1 h2; cases h1; exact hv (by cases h2; rfl))
          | _, isFalse hr => isFalse (by intro h; injection h with h1 h2; exact hr h2)
        else isFalse (by intro h; injection h with h1 h2; cases h1; exact hk rfl)

instance : DecidableEq DVal := DVal.deq

/-- Modelled from the spec: the tracked-property-registration call (`set`
from core/observer/index.js, which is not under src/): it assigns a key
absent from the target so that the new key becomes observable.  As a pure
value transformation it is key assignment. -/
def vset (l : List (String × DVal)) (k : String) (v : DVal) : List (String × DVal) :=
  aset l k v

mutual
/-- Embedding of `mergeData`'s loop over `from`'s own keys (`to` and `from`
given as field lists): process each key of `from` in order through
`mergeDataStep`. -/
def mergeDataFields (tf : List (String × DVal)) : List (String × DVal) → List (String × DVal)
  | [] => tf
  | (key, fromVal) :: rest => mergeDataFields (mergeDataStep tf key fromVal) rest
termination_by l => sizeOf l

/-- One iteration of the `mergeData` loop: skip the reserved `__ob__`
bookkeeping key; a key absent from `to` is added via the
tracked-property-registration call; a key present in both whose two values
are plain objects and not identical is merged recursively; otherwise `to`'s
value is kept. -/
def mergeDataStep (tf : List (String × DVal)) (key : String) (fromVal : DVal) :
    List (String × DVal) :=
  if key = "__ob__" then tf
  else
    match alookup tf key, fromVal with
    | none, _ => vset tf key fromVal
    | some (.pobj tfk), .pobj ffk =>
        if tfk = ffk then tf else aset tf key (.pobj (mergeDataFields tfk ffk))
    | some _, _ => tf
termination_by sizeOf fromVal
end

/-- Embedding of `mergeData(to, from)`: falsy `from` (or a `from` without
own keys) returns `to`; both plain objects fold `from`'s keys in;
registering keys on a non-object `to` registers nothing. -/
def mergeData (toV : DVal) : DVal → DVal
  | .undef => toV
  | .atom _ => toV
  | .pobj ff =>
      match toV with
      | .pobj tf => .pobj (mergeDataFields tf ff)
      | other => other

/-- A data option value: a zero-argument factory (a callable with an
identity, evaluating to the value its invocation produces) or a direct
value; `typeof x === 'function'` distinguishes the two. -/
inductive DataSide where
  | factory (id : Nat) (result : DVal)
  | value (v : DVal)
  deriving DecidableEq

/-- `typeof v === 'function' ? v.call(vm, vm) : v`. -/
def evalSide : DataSide → DVal
  | .factory _ r => r
  | .value v => v

/-- The value `mergeDataOrFn` returns: one input passed through unchanged,
or one of the two closures it allocates (`mergedDataFn` without an instance
context, `mergedInstanceDataFn` with one), holding both unevaluated sides. -/
inductive DataRes where
  | plainRes (s : Option DataSide)
  | mergedDataFn (pv cv : DataSide)
  | mergedInstanceDataFn (pv cv : Option DataSide)
  deriving DecidableEq

/-- Embedding of `mergeDataOrFn`: without `vm`, an absent child returns the
parent, an absent parent returns the child, and both present return the
`mergedDataFn` closure; with `vm`, the `mergedInstanceDataFn` closure is
returned unconditionally. -/
def mergeDataOrFn (parentVal childVal : Option DataSide) (vm : Bool) : DataRes :=
  if !vm then
    match childVal with
    | none => .plainRes parentVal
    | some c =>
        match parentVal with
        | none => .plainRes (some c)
        | some p => .mergedDataFn p c
  else .mergedInstanceDataFn parentVal childVal

/-- Invoking the `mergedDataFn` closure: evaluate both captured sides
(calling each if callable, using it directly otherwise) and deep-merge the
parent's result into the child's result as primary target. -/
def invokeMergedDataFn (p c : DataSide) : DVal :=
  mergeData (evalSide c) (evalSide p)

/-- Truthiness of a data value (`undefined` is falsy; opaque values are
modelled truthy). -/
def dtruthy : DVal → Bool
  | .undef => false
  | _ => true

/-- Invoking the `mergedInstanceDataFn` closure: evaluate the child side
first; if it yields a usable result, deep-merge the parent side's evaluated
result into it, else return the parent side's evaluated result. -/
def invokeMergedInstanceDataFn (p c : Option DataSide) : DVal :=
  let instanceData := match c with | some s => evalSide s | none => DVal.undef
  let defaultData := match p with | some s => evalSide s | none => DVal.undef
  if dtruthy instanceData then mergeData instanceData defaultData else defaultData

/-- The per-key meaning of the deep merge, stated the way the spec words
it: a key absent from the primary takes the secondary's value; a key
present in both with both values plain keyed structures is merged
recursively; otherwise the primary's value is kept. -/
def mergeLookupSpec (tf ff : List (String × DVal)) (k : String) : Option DVal :=
  match alookup tf k, alookup ff k with
  | none, some fv => some fv
  | some (.pobj tfk), some (.pobj ffk) =>
      if tfk = ffk then some (.pobj tfk) else some (.pobj (mergeDataFields tfk ffk))
  | some tv, some _ => some tv
  | some tv, none => some tv
  | none, none => none

theorem mem_akeys_of_alookup {α : Type} (l : List (String × α)) (k : String) (v : α)
    (h : alookup l k = some v) : k ∈ akeys l := by
  induction l with
  | nil => simp [alookup] at h
  | cons kv rest ih =>
      obtain ⟨k', v'⟩ := kv
      by_cases hk : k' = k
      · subst hk; simp
      · simp only [alookup_cons, if_neg hk] at h
        simp only [akeys_cons, List.mem_cons]
        exact Or.inr (ih h)

theorem alookup_eq_none_of_not_mem_akeys {α : Type} (l : List (String × α)) (k : String)
    (h : k ∉ akeys l) : alookup l k = none := by
  cases hl : alookup l k with
  | none => rfl
  | some v => exact absurd (mem_akeys_of_alookup l k v hl) h

theorem alookup_mergeDataStep_ne (tf : List (String × DVal)) (k0 : String) (fv : DVal)
    (k : String) (hk : k0 ≠ k) :
    alookup (mergeDataStep tf k0 fv) k = alookup tf k := by
  unfold mergeDataStep
  split
  · rfl
  · split
    · exact alookup_aset_ne _ _ _ _ hk
    · split
      · rfl
      · exact alookup_aset_ne _ _ _ _ hk
    · rfl

theorem alookup_mergeDataStep_ob (tf : List (String × DVal)) (k0 : String) (fv : DVal) :
    alookup (mergeDataStep tf k0 fv) "__ob__" = alookup tf "__ob__" := by
  by_cases hob : k0 = "__ob__"
  · subst hob
    unfold mergeDataStep
    simp
  · exact alookup_mergeDataStep_ne tf k0 fv _ hob

theorem alookup_mergeDataFields_ob (tf ff : List (String × DVal)) :
    alookup (mergeDataFields tf ff) "__ob__" = alookup tf "__ob__" := by
  induction ff generalizing tf with
  | nil => simp [mergeDataFields]
  | cons kv rest ih =>
      obtain ⟨k0, fv⟩ := kv
      simp only [mergeDataFields]
      rw [ih, alookup_mergeDataStep_ob]

theorem alookup_mergeDataFields (tf ff : List (String × DVal)) (k : String)
    (hn : (akeys ff).Nodup) (hk : k ≠ "__ob__") :
    alookup (mergeDataFields tf ff) k = mergeLookupSpec tf ff k := by
  induction ff generalizing tf with
  | nil =>
      simp only [mergeDataFields, mergeLookupSpec, alookup_nil]
      cases alookup tf k with
      | none => rfl
      | some tv => cases tv <;> rfl
  | cons kv rest ih =>
      obtain ⟨k0, fv⟩ := kv
      simp only [akeys_cons, List.nodup_cons] at hn
      simp only [mergeDataFields]
      rw [ih _ hn.2]
      by_cases hkk : k0 = k
      · subst hkk
        have hrest := alookup_eq_none_of_not_mem_akeys rest k0 hn.1
        cases htv : alookup tf k0 with
        | none =>
            unfold mergeLookupSpec mergeDataStep
            rw [if_neg hk, htv, hrest]
            simp [vset, alookup_aset]
        | some tv =>
            cases tv with
            | pobj tfk =>
                cases fv with
                | pobj ffk =>
                    by_cases heq : tfk = ffk
                    · unfold mergeLookupSpec mergeDataStep
                      rw [if_neg hk, htv, hrest]
                      simp [heq, htv]
                    · unfold mergeLookupSpec mergeDataStep
                      rw [if_neg hk, htv, hrest]
                      simp [heq, alookup_aset]
                | undef =>
                    unfold mergeLookupSpec mergeDataStep
                    rw [if_neg hk, htv, hrest]
                    simp [htv]
                | atom n =>
                    unfold mergeLookupSpec mergeDataStep
                    rw [if_neg hk, htv, hrest]
                    simp [htv]
            | undef =>
                unfold mergeLookupSpec mergeDataStep
                rw [if_neg hk, htv, hrest]
                simp [htv]
            | atom n =>
                unfold mergeLookupSpec mergeDataStep
                rw [if_neg hk, htv, hrest]
                simp [htv]
      · have hstep := alookup_mergeDataStep_ne tf k0 fv k hkk
        unfold mergeLookupSpec
        rw [hstep]
        simp only [alookup_cons, if_neg hkk]

/-- **C7**: for the state-factory field merged without an instance context
(`mergeDataOrFn` with no `vm`): an absent side returns the other side
unchanged; two present sides return a new factory that holds both sides
unevaluated; invoking that factory evaluates both sides (calling each if
callable, using it directly otherwise) and deep-merges the parent's result
into the child's result as primary target; per key, the deep merge adds
keys absent from the primary via the tracked-property-registration call
(`vset`, giving them the secondary's value), recurses when both values are
plain keyed structures (identical values excepted, where keeping the
primary coincides with recursing), keeps the primary's value otherwise, and
always skips the reserved `__ob__` bookkeeping key. -/
theorem mergeDataOrFn_no_vm_spec (p c : DataSide) (tf ff : List (String × DVal)) (k : String)
    (hn : (akeys ff).Nodup) (hk : k ≠ "__ob__") :
    mergeDataOrFn (some p) none false = .plainRes (some p) ∧
    mergeDataOrFn none (some c) false = .plainRes (some c) ∧
    mergeDataOrFn none none false = .plainRes none ∧
    mergeDataOrFn (some p) (some c) false = .mergedDataFn p c ∧
    invokeMergedDataFn p c = mergeData (evalSide c) (evalSide p) ∧
    mergeData (.pobj tf) (.pobj ff) = .pobj (mergeDataFields tf ff) ∧
    alookup (mergeDataFields tf ff) k = mergeLookupSpec tf ff k ∧
    alookup (mergeDataFields tf ff) "__ob__" = alookup tf "__ob__" := by
  exact ⟨rfl, rfl, rfl, rfl, rfl, rfl, alookup_mergeDataFields tf ff k hn hk,
    alookup_mergeDataFields_ob tf ff⟩

/-- Witness for C7 at a concrete input: child result `{b: 3}` as primary,
parent result `{a: 1}` folded in; the key `a`, absent from the primary, is
added with the parent's value. -/
theorem mergeDataOrFn_no_vm_spec_witness :
    ("a" ≠ "__ob__") ∧ (akeys [("a", DVal.atom 1)]).Nodup ∧
    alookup (mergeDataFields [("b", DVal.atom 3)] [("a", DVal.atom 1)]) "a" =
      some (.atom 1) := by
  have h := mergeDataOrFn_no_vm_spec (.factory 0 (.pobj [("a", DVal.atom 1)]))
    (.value (.pobj [("b", DVal.atom 3)]))
    [("b", DVal.atom 3)] [("a", DVal.atom 1)] "a" (by decide) (by decide)
  refine ⟨by decide, by decide, ?_⟩
  rw [h.2.2.2.2.2.2.1]
  decide

/-! ## Canonical-case transforms (modelled from the spec)

`camelize` and `capitalize` live in shared/util.js, which is not part of
the given sources.  They are modelled from the spec: `camelize` is the
canonical-case transform turning hyphen-delimited names into camel case
(`"my-widget"` becomes `"myWidget"`, consecutive or trailing hyphens are
dropped); `capitalize` upper-cases the first character.  ASCII case
conversion is spelled out explicitly. -/

/-- ASCII upper-casing of one character. -/
def upChar : Char → Char
  | 'a' => 'A' | 'b' => 'B' | 'c' => 'C' | 'd' => 'D' | 'e' => 'E' | 'f' => 'F'
  | 'g' => 'G' | 'h' => 'H' | 'i' => 'I' | 'j' => 'J' | 'k' => 'K' | 'l' => 'L'
  | 'm' => 'M' | 'n' => 'N' | 'o' => 'O' | 'p' => 'P' | 'q' => 'Q' | 'r' => 'R'
  | 's' => 'S' | 't' => 'T' | 'u' => 'U' | 'v' => 'V' | 'w' => 'W' | 'x' => 'X'
  | 'y' => 'Y' | 'z' => 'Z'
  | c => c

/-- The canonical-case transform on character lists: drop hyphens and
upper-case the first ordinary character after one or more hyphens (the flag
records whether a hyphen was just crossed). -/
def camelizeGo : Bool → List Char → List Char
  | _, [] => []
  | afterHyphen, c :: rest =>
      if c = '-' then camelizeGo true rest
      else (if afterHyphen then upChar c else c) :: camelizeGo false rest

/-- Modelled from the spec: `camelize`, the canonical-case transform. -/
def camelize (s : String) : String :=
  ⟨camelizeGo false s.data⟩

/-- Modelled from the spec: `capitalize`, upper-casing the first character. -/
def capitalize (s : String) : String :=
  match s.data with
  | [] => s
  | c :: rest => ⟨upChar c :: rest⟩

theorem upChar_ne_hyphen (c : Char) (h : c ≠ '-') : upChar c ≠ '-' := by
  unfold upChar
  split <;> first | decide | exact h

theorem camelizeGo_no_hyphen (l : List Char) :
    ∀ b, '-' ∉ camelizeGo b l := by
  induction l with
  | nil => intro b; simp [camelizeGo]
  | cons c rest ih =>
      intro b
      by_cases hc : c = '-'
      · subst hc
        rw [camelizeGo, if_pos rfl]
        exact ih true
      · rw [camelizeGo, if_neg hc]
        intro hmem
        rcases List.mem_cons.mp hmem with h | h
        · cases b with
          | false => exact hc h.symm
          | true => exact upChar_ne_hyphen c hc (by simpa using h.symm)
        · exact ih false h

theorem camelizeGo_of_no_hyphen (l : List Char) (h : '-' ∉ l) :
    camelizeGo false l = l := by
  induction l with
  | nil => rfl
  | cons c rest ih =>
      have hc : c ≠ '-' := fun he => h (he ▸ List.mem_cons_self c rest)
      rw [camelizeGo, if_neg hc, ih (fun hm => h (List.mem_cons_of_mem c hm))]
      simp

/-- The canonical-case transform is idempotent: its output contains no
hyphen, and it is the identity on hyphen-free names. -/
theorem camelize_idem (s : String) : camelize (camelize s) = camelize s := by
  unfold camelize
  exact congrArg String.mk
    (camelizeGo_of_no_hyphen _ (camelizeGo_no_hyphen s.data false))

/-! ## Field normalization (`normalizeProps` / `normalizeInject` /
`normalizeDirectives`, src/core/util/options.js), content-level model

The three normalizers mutate the child options object in place.  For the
idempotence property only the resulting content matters, so they are
embedded as pure transformations of the options object's field list.
`NVal` is the value tree: `undefined`, `null`, strings, functions
(identified by `Nat`), plain objects and arrays; other primitives do not
alter control flow beyond truthiness and are not needed by the claims. -/

inductive NVal where
  | undef
  | nnull
  | nstr (s : String)
  | nfn (id : Nat)
  | nobj (fields : List (String × NVal))
  | narr (elems : List NVal)

def NVal.deq : (a b : NVal) → Decidable (a = b)
  | .undef, .undef => isTrue rfl
  | .undef , .nnull => isFalse (by intro h; cases h)
  | .undef , .nstr _ => isFalse (by intro h; cases h)
  | .undef , .nfn _ => isFalse (by intro h; cases h)
  | .undef , .nobj _ => isFalse (by intro h; cases h)
  | .undef , .narr _ => isFalse (by intro h; cases h)
  | .nnull , .undef => isFalse (by intro h; cases h)
  | .nnull, .nnull => isTrue rfl
  | .nnull , .nstr _ => isFalse (by intro h; cases h)
  | .nnull , .nfn _ => isFalse (by intro h; cases h)
  | .nnull , .nobj _ => isFalse (by intro h; cases h)
  | .nnull , .narr _ => isFalse (by intro h; cases h)
  | .nstr _, .undef => isFalse (by intro h; cases h)
  | .nstr _, .nnull => isFalse (by intro h; cases h)
  | .nstr s1, .nstr s2 =>
      if h : s1 = s2 then isTrue (by rw [h])
      else isFalse (by intro hh; cases hh; exact h rfl)
  | .nstr _, .nfn _ => isFalse (by intro h; cases h)
  | .nstr _, .nobj _ => isFalse (by intro h; cases h)
  | .nstr _, .narr _ => isFalse (by intro h; cases h)
  | .nfn _, .undef => isFalse (by intro h; cases h)
  | .nfn _, .nnull => isFalse (by intro h; cases h)
  | .nfn _, .nstr _ => isFalse (by intro h; cases h)
  | .nfn id1, .nfn id2 =>
      if h : id1 = id2 then isTrue (by rw [h])
      else isFalse (by intro hh; cases hh; exact h rfl)
  | .nfn _, .nobj _ => isFalse (by intro h; cases h)
  | .nfn _, .narr _ => isFalse (by intro h; cases h)
  | .nobj _, .undef => isFalse (by intro h; cases h)
  | .nobj _, .nnull => isFalse (by intro h; cases h)
  | .nobj _, .nstr _ => isFalse (by intro h; cases h)
  | .nobj _, .nfn _ => isFalse (by intro h; cases h)
  | .nobj f1, .nobj f2 =>
      match deqF f1 f2 with
      | isTrue h => isTrue (by rw [h])
      | isFalse h => isFalse (by intro hh; cases hh; exact h rfl)
  | .nobj _, .narr _ => isFalse (by intro h; cases h)
  | .narr _, .undef => isFalse (by intro h; cases h)
  | .narr _, .nnull => isFalse (by intro h; cases h)
  | .narr _, .nstr _ => isFalse (by intro h; cases h)
  | .narr _, .nfn _ => isFalse (by intro h; cases h)
  | .narr _, .nobj _ => isFalse (by intro h; cases h)
  | .narr e1, .narr e2 =>
      match deqE e1 e2 with
      | isTrue h => isTrue (by rw [h])
      | isFalse h => isFalse (by intro hh; cases hh; exact h rfl)
where
  deqF : (xs ys : List (String × NVal)) → Decidable (xs = ys)
    | [], [] => isTrue rfl
    | [], _ :: _ => isFalse (by intro h; cases h)
    | _ :: _, [] => isFalse (by intro h; cases h)
    | (k, v) :: r, (k', v') :: r' =>
        if hk : k = k' then
          match NVal.deq v v', deqF r r' with
          | isTrue hv, isTrue hr => isTrue (by rw [hk, hv, hr])
          | isFalse hv, _ =>
              isFalse (by intro h; injection h with h1 h2; cases h1; exact hv (by cases h2; rfl))
          | _, isFalse hr => isFalse (by intro h; injection h with h1 h2; exact hr h2)
        else isFalse (by intro h; injection h with h1 h2; cases h1; exact hk rfl)
  deqE : (xs ys : List NVal) → Decidable (xs = ys)
    | [], [] => isTrue rfl
    | [], _ :: _ => isFalse (by intro h; cases h)
    | _ :: _, [] => isFalse (by intro h; cases h)
    | v :: r, v' :: r' =>
        match NVal.deq v v', deqE r r' with
        | isTrue hv, isTrue hr => isTrue (by rw [hv, hr])
        | isFalse hv, _ => isFalse (by intro h; injection h with h1 h2; exact hv h1)
        | _, isFalse hr => isFalse (by intro h; injection h with h1 h2; exact hr h2)

instance : DecidableEq NVal := NVal.deq

/-! ### Further association-list lemmas -/

theorem aset_self {α : Type} (l : List (String × α)) (k : String) (v : α)
    (h : alookup l k = some v) : aset l k v = l := by
  induction l with
  | nil => simp [alookup] at h
  | cons kv rest ih =>
      obtain ⟨k', v'⟩ := kv
      by_cases hk : k' = k
      · subst hk
        simp at h
        simp [h]
      · simp only [alookup_cons, if_neg hk] at h
        simp [hk, ih h]

theorem aset_absent {α : Type} (l : List (String × α)) (k : String) (v : α)
    (h : alookup l k = none) : aset l k v = l ++ [(k, v)] := by
  induction l with
  | nil => simp [aset]
  | cons kv rest ih =>
      obtain ⟨k', v'⟩ := kv
      by_cases hk : k' = k
      · subst hk; simp [alookup] at h
      · simp only [alookup_cons, if_neg hk] at h
        simp [aset, hk, ih h]

theorem alookup_append_of_none {α : Type} (l1 l2 : List (String × α)) (k : String)
    (h : alookup l1 k = none) : alookup (l1 ++ l2) k = alookup l2 k := by
  induction l1 with
  | nil => simp
  | cons kv rest ih =>
      obtain ⟨k', v'⟩ := kv
      by_cases hk : k' = k
      · subst hk; simp [alookup] at h
      · simp only [alookup_cons, if_neg hk] at h
        simp [alookup, hk, ih h]

theorem mem_akeys_aset {α : Type} (l : List (String × α)) (k k' : String) (v : α)
    (h : k' ∈ akeys (aset l k v)) : k' ∈ akeys l ∨ k' = k := by
  induction l with
  | nil => simpa [aset, akeys] using h
  | cons kv rest ih =>
      obtain ⟨k₀, v₀⟩ := kv
      by_cases hk : k₀ = k
      · subst hk
        simp only [aset_cons, if_pos rfl, akeys_cons] at h
        simpa [akeys] using Or.inl h
      · simp only [aset_cons, if_neg hk, akeys_cons, List.mem_cons] at h
        rcases h with h | h
        · exact Or.inl (by simp [akeys, h])
        · rcases ih h with h' | h'
          · exact Or.inl (by simp [akeys]; exact Or.inr (by simpa [akeys] using h'))
          · exact Or.inr h'

theorem aset_preserves_nodup {α : Type} (l : List (String × α)) (k : String) (v : α)
    (h : (akeys l).Nodup) : (akeys (aset l k v)).Nodup := by
  induction l with
  | nil => simp [aset, akeys]
  | cons kv rest ih =>
      obtain ⟨k₀, v₀⟩ := kv
      simp only [akeys_cons, List.nodup_cons] at h
      by_cases hk : k₀ = k
      · subst hk
        have hset : aset ((k₀, v₀) :: rest) k₀ v = (k₀, v) :: rest := by simp
        rw [hset]
        simp only [akeys_cons, List.nodup_cons]
        exact ⟨h.1, h.2⟩
      · have hset : aset ((k₀, v₀) :: rest) k v = (k₀, v₀) :: aset rest k v := by
          simp [hk]
        rw [hset]
        simp only [akeys_cons, List.nodup_cons]
        refine ⟨?_, ih h.2⟩
        intro hmem
        rcases mem_akeys_aset rest k k₀ v hmem with h' | h'
        · exact h.1 h'
        · exact hk h'

theorem mem_aset {α : Type} (l : List (String × α)) (k : String) (v : α)
    (kv' : String × α) (h : kv' ∈ aset l k v) : kv' ∈ l ∨ kv' = (k, v) := by
  induction l with
  | nil => simpa [aset] using h
  | cons kv rest ih =>
      obtain ⟨k₀, v₀⟩ := kv
      by_cases hk : k₀ = k
      · subst hk
        have hset : aset ((k₀, v₀) :: rest) k₀ v = (k₀, v) :: rest := by simp
        rw [hset] at h
        rcases List.mem_cons.mp h with h | h
        · exact Or.inr h
        · exact Or.inl (List.mem_cons_of_mem _ h)
      · have hset : aset ((k₀, v₀) :: rest) k v = (k₀, v₀) :: aset rest k v := by
          simp [hk]
        rw [hset] at h
        rcases List.mem_cons.mp h with h | h
        · exact Or.inl (by simp [h])
        · rcases ih h with h' | h'
          · exact Or.inl (List.mem_cons_of_mem _ h')
          · exact Or.inr h'

theorem foldl_aset_fresh {α : Type} (res : List (String × α)) :
    ∀ acc : List (String × α), (∀ kv ∈ res, alookup acc kv.1 = none) →
      (akeys res).Nodup →
      res.foldl (fun r kv => aset r kv.1 kv.2) acc = acc ++ res := by
  induction res with
  | nil => intro acc _ _; simp
  | cons kv rest ih =>
      intro acc hfresh hnodup
      obtain ⟨k, v⟩ := kv
      simp only [akeys_cons, List.nodup_cons] at hnodup
      rw [List.foldl_cons]
      have hk : alookup acc k = none := hfresh (k, v) (List.mem_cons_self _ _)
      rw [aset_absent acc k v hk]
      rw [ih (acc ++ [(k, v)]) ?_ hnodup.2]
      · simp
      · intro kv' hkv'
        have h1 : alookup acc kv'.1 = none := hfresh kv' (List.mem_cons_of_mem _ hkv')
        rw [alookup_append_of_none _ _ _ h1]
        have hne : k ≠ kv'.1 := by
          intro he
          exact hnodup.1 (he ▸ (by simpa [akeys] using List.mem_map_of_mem Prod.fst hkv'))
        simp [alookup, hne]

/-! ### The three normalizers (content level) -/

/-- Truthiness of a normalization value (`undefined`, `null`, and the empty
string are falsy; the other shapes occurring here are truthy). -/
def ntruthy : NVal → Bool
  | .undef => false
  | .nnull => false
  | .nstr s => !(s == "")
  | _ => true

/-- `isPlainObject` on normalization values. -/
def isNobj : NVal → Bool
  | .nobj _ => true
  | _ => false

/-- `typeof v === 'function'` on normalization values. -/
def isNfn : NVal → Bool
  | .nfn _ => true
  | _ => false

/-- Modelled from the spec: `extend(to, from)` from shared/util.js — copy
each of `from`'s keys onto `to` in order, overwriting on collision. -/
def extendFields (toF fromF : List (String × NVal)) : List (String × NVal) :=
  fromF.foldl (fun acc kv => aset acc kv.1 kv.2) toF

/-- The property key an array entry is registered under
(`normalized[inject[i]] = ...`): JavaScript coerces the entry to a string;
only string entries occur in canonical inputs, the other coercions are
schematic. -/
def keyOfNVal : NVal → String
  | .nstr s => s
  | .undef => "undefined"
  | .nnull => "null"
  | .nfn _ => "function"
  | .nobj _ => "[object Object]"
  | .narr _ => "array"

/-- Embedding of `normalizeProps` (content level): absent or falsy `props`
is left untouched; an array of names registers each string entry (the
`while (i--)` loop walks the array from its last entry to its first) as
`camelize(name) -> {type: null}`; a plain object registers
`camelize(key) -> (isPlainObject(val) ? val : {type: val})`; any other
shape leaves `res` empty; the accumulated `res` then replaces
`options.props`. -/
def normalizePropsP (o : List (String × NVal)) : List (String × NVal) :=
  match alookup o "props" with
  | none => o
  | some props =>
      if ntruthy props then
        let res : List (String × NVal) :=
          match props with
          | .narr elems =>
              elems.reverse.foldl (fun r v =>
                match v with
                | .nstr s => aset r (camelize s) (.nobj [("type", .nnull)])
                | _ => r) []
          | .nobj pf =>
              pf.foldl (fun r kv =>
                aset r (camelize kv.1)
                  (match kv.2 with
                   | .nobj vf => .nobj vf
                   | v => .nobj [("type", v)])) []
          | _ => []
        aset o "props" (.nobj res)
      else o

/-- The value an object-form injection entry `key -> val` is normalized to:
`extend({from: key}, val)` when `val` is a plain object, else `{from: val}`. -/
def injectWrap (k : String) : NVal → NVal
  | .nobj vf => .nobj (extendFields [("from", .nstr k)] vf)
  | v => .nobj [("from", v)]

/-- Embedding of `normalizeInject` (content level): absent or falsy
`inject` is left untouched; an array entry `k` registers `k -> {from: k}`;
an object entry `key -> val` registers `key -> injectWrap key val`; any
other shape leaves the replacement empty; the accumulated object replaces
`options.inject`. -/
def normalizeInjectP (o : List (String × NVal)) : List (String × NVal) :=
  match alookup o "inject" with
  | none => o
  | some inject =>
      if ntruthy inject then
        let normalized : List (String × NVal) :=
          match inject with
          | .narr elems =>
              elems.foldl (fun r v => aset r (keyOfNVal v) (.nobj [("from", v)])) []
          | .nobj pf =>
              pf.foldl (fun r kv => aset r kv.1 (injectWrap kv.1 kv.2)) []
          | _ => []
        aset o "inject" (.nobj normalized)
      else o

/-- The directive-shorthand expansion: a bare callable becomes an object
exposing the same callable under both `bind` and `update`; other values are
untouched. -/
def directiveWrap : NVal → NVal
  | .nfn id => .nobj [("bind", .nfn id), ("update", .nfn id)]
  | v => v

/-- Embedding of `normalizeDirectives` (content level): each
function-valued entry of the `directives` object is replaced in place by
its `directiveWrap`; other entries and other shapes are untouched. -/
def normalizeDirectivesP (o : List (String × NVal)) : List (String × NVal) :=
  match alookup o "directives" with
  | none => o
  | some dirs =>
      if ntruthy dirs then
        match dirs with
        | .nobj df => aset o "directives" (.nobj (df.map (fun kv => (kv.1, directiveWrap kv.2))))
        | _ => o
      else o

/-- The three normalizers in the order `mergeOptions` runs them. -/
def normalizeAll (o : List (String × NVal)) : List (String × NVal) :=
  normalizeDirectivesP (normalizeInjectP (normalizePropsP o))

/-! ### Invariants established by the normalizers -/

theorem foldl_step_invariant {β : Type} (P : String × NVal → Prop)
    (step : List (String × NVal) → β → List (String × NVal)) :
    ∀ (l : List β) (acc : List (String × NVal)),
      (∀ r b, b ∈ l → step r b = r ∨ ∃ k v, P (k, v) ∧ step r b = aset r k v) →
      (akeys acc).Nodup → (∀ kv ∈ acc, P kv) →
      (akeys (l.foldl step acc)).Nodup ∧ ∀ kv ∈ l.foldl step acc, P kv := by
  intro l
  induction l with
  | nil => intro acc _ h1 h2; exact ⟨h1, h2⟩
  | cons b rest ih =>
      intro acc hstep h1 h2
      rw [List.foldl_cons]
      rcases hstep acc b (List.mem_cons_self _ _) with he | ⟨k, v, hp, he⟩
      · rw [he]
        exact ih acc (fun r b' hb' => hstep r b' (List.mem_cons_of_mem _ hb')) h1 h2
      · rw [he]
        refine ih _ (fun r b' hb' => hstep r b' (List.mem_cons_of_mem _ hb'))
          (aset_preserves_nodup _ _ _ h1) ?_
        intro kv hkv
        rcases mem_aset _ _ _ _ hkv with hm | hm
        · exact h2 kv hm
        · rw [hm]; exact hp

/-- The canonical shape `normalizeProps` leaves behind: keys already in
canonical case, every value spec-shaped (a plain object). -/
def PropsCanon (res : List (String × NVal)) : Prop :=
  (akeys res).Nodup ∧ ∀ kv ∈ res, camelize kv.1 = kv.1 ∧ isNobj kv.2 = true

/-- What the `props` field can hold after one normalization pass. -/
def PropsState : Option NVal → Prop
  | none => True
  | some v => ntruthy v = false ∨ ∃ res, v = .nobj res ∧ PropsCanon res

theorem normalizePropsP_establishes (o : List (String × NVal)) :
    PropsState (alookup (normalizePropsP o) "props") := by
  unfold normalizePropsP
  cases hp : alookup o "props" with
  | none => simp [hp, PropsState]
  | some props =>
      dsimp only
      by_cases ht : ntruthy props
      · rw [if_pos ht, alookup_aset]
        refine Or.inr ⟨_, rfl, ?_⟩
        cases props with
        | narr elems =>
            exact foldl_step_invariant _ _ elems.reverse []
              (fun r b _ => by
                cases b with
                | nstr s => exact Or.inr ⟨camelize s, .nobj [("type", .nnull)],
                    ⟨camelize_idem s, rfl⟩, rfl⟩
                | undef => exact Or.inl rfl
                | nnull => exact Or.inl rfl
                | nfn id => exact Or.inl rfl
                | nobj f => exact Or.inl rfl
                | narr e => exact Or.inl rfl)
              (by simp [akeys]) (by simp)
        | nobj pf =>
            exact foldl_step_invariant _ _ pf []
              (fun r b _ => Or.inr ⟨camelize b.1, _, ⟨camelize_idem b.1,
                by cases b.2 <;> rfl⟩, rfl⟩)
              (by simp [akeys]) (by simp)
        | undef => exact ⟨by simp [akeys], by simp⟩
        | nnull => exact ⟨by simp [akeys], by simp⟩
        | nstr s => exact ⟨by simp [akeys], by simp⟩
        | nfn id => exact ⟨by simp [akeys], by simp⟩
      · rw [if_neg ht, hp]
        exact Or.inl (by simpa using ht)

theorem props_rebuild (res : List (String × NVal)) (hc : PropsCanon res) :
    res.foldl (fun r kv =>
      aset r (camelize kv.1)
        (match kv.2 with
         | .nobj vf => .nobj vf
         | v => .nobj [("type", v)])) [] = res := by
  have hext : res.foldl (fun r kv =>
      aset r (camelize kv.1)
        (match kv.2 with
         | .nobj vf => .nobj vf
         | v => .nobj [("type", v)])) [] =
      res.foldl (fun r kv => aset r kv.1 kv.2) [] := by
    apply List.foldl_ext
    intro a kv hkv
    obtain ⟨hcam, hobj⟩ := hc.2 kv hkv
    rw [hcam]
    cases hv : kv.2 with
    | nobj vf => rfl
    | undef => rw [hv] at hobj; cases hobj
    | nnull => rw [hv] at hobj; cases hobj
    | nstr s => rw [hv] at hobj; cases hobj
    | nfn id => rw [hv] at hobj; cases hobj
    | narr e => rw [hv] at hobj; cases hobj
  rw [hext, foldl_aset_fresh res [] (by intro kv _; simp) hc.1]
  simp

theorem normalizePropsP_stable (o : List (String × NVal))
    (h : PropsState (alookup o "props")) : normalizePropsP o = o := by
  cases hp : alookup o "props" with
  | none => simp [normalizePropsP, hp]
  | some v =>
      rw [hp] at h
      rcases h with hf | ⟨res, rfl, hc⟩
      · simp [normalizePropsP, hp, hf]
      · simp only [normalizePropsP, hp]
        have htr : ntruthy (NVal.nobj res) = true := rfl
        rw [if_pos htr]
        rw [props_rebuild res hc]
        exact aset_self o "props" (.nobj res) hp

/-- The canonical shape of one normalized injection value: a plain object
whose first field is `from`, with duplicate-free field keys. -/
def InjVal (v : NVal) : Prop :=
  ∃ w vr, v = .nobj (("from", w) :: vr) ∧ "from" ∉ akeys vr ∧ (akeys vr).Nodup

/-- What the `inject` field can hold after one normalization pass. -/
def InjState : Option NVal → Prop
  | none => True
  | some v => ntruthy v = false ∨
      ∃ res, v = .nobj res ∧ (akeys res).Nodup ∧ ∀ kv ∈ res, InjVal kv.2

theorem extendFields_from_aux (vf : List (String × NVal)) :
    ∀ (w : NVal) (vr : List (String × NVal)), "from" ∉ akeys vr → (akeys vr).Nodup →
      ∃ w' vr', vf.foldl (fun acc kv => aset acc kv.1 kv.2) (("from", w) :: vr) =
          ("from", w') :: vr' ∧ "from" ∉ akeys vr' ∧ (akeys vr').Nodup := by
  induction vf with
  | nil => intro w vr h1 h2; exact ⟨w, vr, rfl, h1, h2⟩
  | cons kv rest ih =>
      intro w vr h1 h2
      obtain ⟨k, v⟩ := kv
      rw [List.foldl_cons]
      by_cases hk : k = "from"
      · subst hk
        have hstep : aset (("from", w) :: vr) "from" v = ("from", v) :: vr := by simp
        rw [hstep]
        exact ih v vr h1 h2
      · have hstep : aset (("from", w) :: vr) k v = ("from", w) :: aset vr k v := by
          simp [Ne.symm hk]
        rw [hstep]
        refine ih w (aset vr k v) ?_ (aset_preserves_nodup _ _ _ h2)
        intro hmem
        rcases mem_akeys_aset vr k _ v hmem with h' | h'
        · exact h1 h'
        · exact hk h'.symm

theorem extendFields_from_shape (x : NVal) (vf : List (String × NVal)) :
    InjVal (.nobj (extendFields [("from", x)] vf)) := by
  obtain ⟨w', vr', heq, h1, h2⟩ :=
    extendFields_from_aux vf x [] (by simp [akeys]) (by simp [akeys])
  exact ⟨w', vr', by rw [extendFields, heq], h1, h2⟩

theorem injectWrap_injVal (k : String) (v : NVal) : InjVal (injectWrap k v) := by
  cases v with
  | nobj vf => exact extendFields_from_shape (.nstr k) vf
  | undef => exact ⟨.undef, [], rfl, by simp [akeys], by simp [akeys]⟩
  | nnull => exact ⟨.nnull, [], rfl, by simp [akeys], by simp [akeys]⟩
  | nstr s => exact ⟨.nstr s, [], rfl, by simp [akeys], by simp [akeys]⟩
  | nfn id => exact ⟨.nfn id, [], rfl, by simp [akeys], by simp [akeys]⟩
  | narr e => exact ⟨.narr e, [], rfl, by simp [akeys], by simp [akeys]⟩

theorem normalizeInjectP_establishes (o : List (String × NVal)) :
    InjState (alookup (normalizeInjectP o) "inject") := by
  unfold normalizeInjectP
  cases hp : alookup o "inject" with
  | none => simp [hp, InjState]
  | some inject =>
      dsimp only
      by_cases ht : ntruthy inject
      · rw [if_pos ht, alookup_aset]
        refine Or.inr ⟨_, rfl, ?_⟩
        cases inject with
        | narr elems =>
            exact foldl_step_invariant (fun kv => InjVal kv.2) _ elems []
              (fun r b _ => Or.inr ⟨keyOfNVal b, .nobj [("from", b)],
                ⟨b, [], rfl, by simp [akeys], by simp [akeys]⟩, rfl⟩)
              (by simp [akeys]) (by simp)
        | nobj pf =>
            exact foldl_step_invariant (fun kv => InjVal kv.2) _ pf []
              (fun r b _ => Or.inr ⟨b.1, injectWrap b.1 b.2, injectWrap_injVal b.1 b.2, rfl⟩)
              (by simp [akeys]) (by simp)
        | undef => exact ⟨by simp [akeys], by simp⟩
        | nnull => exact ⟨by simp [akeys], by simp⟩
        | nstr s => exact ⟨by simp [akeys], by simp⟩
        | nfn id => exact ⟨by simp [akeys], by simp⟩
      · rw [if_neg ht, hp]
        exact Or.inl (by simpa using ht)

theorem injectWrap_stable (k : String) (v : NVal) (h : InjVal v) : injectWrap k v = v := by
  obtain ⟨w, vr, rfl, hfrom, hnd⟩ := h
  show NVal.nobj (extendFields [("from", NVal.nstr k)] (("from", w) :: vr)) = _
  congr 1
  unfold extendFields
  rw [List.foldl_cons]
  have h1 : aset [("from", NVal.nstr k)] "from" w = [("from", w)] := by simp
  have hfresh : ∀ kv ∈ vr, alookup [("from", w)] kv.1 = none := by
    intro kv hkv
    have hne : "from" ≠ kv.1 := fun he =>
      hfrom (he ▸ (by simpa [akeys] using List.mem_map_of_mem Prod.fst hkv))
    simp [alookup, hne]
  rw [h1, foldl_aset_fresh vr [("from", w)] hfresh hnd]
  simp

theorem inj_rebuild (res : List (String × NVal)) (hnd : (akeys res).Nodup)
    (hvals : ∀ kv ∈ res, InjVal kv.2) :
    res.foldl (fun r kv => aset r kv.1 (injectWrap kv.1 kv.2)) [] = res := by
  have hext : res.foldl (fun r kv => aset r kv.1 (injectWrap kv.1 kv.2)) [] =
      res.foldl (fun r kv => aset r kv.1 kv.2) [] := by
    apply List.foldl_ext
    intro a kv hkv
    rw [injectWrap_stable kv.1 kv.2 (hvals kv hkv)]
  rw [hext, foldl_aset_fresh res [] (by intro kv _; simp) hnd]
  simp

theorem normalizeInjectP_stable (o : List (String × NVal))
    (h : InjState (alookup o "inject")) : normalizeInjectP o = o := by
  cases hp : alookup o "inject" with
  | none => simp [normalizeInjectP, hp]
  | some v =>
      rw [hp] at h
      rcases h with hf | ⟨res, rfl, hnd, hvals⟩
      · simp [normalizeInjectP, hp, hf]
      · simp only [normalizeInjectP, hp]
        have htr : ntruthy (NVal.nobj res) = true := rfl
        rw [if_pos htr]
        rw [inj_rebuild res hnd hvals]
        exact aset_self o "inject" (.nobj res) hp

/-- What the `directives` field can hold after one normalization pass. -/
def DirsState : Option NVal → Prop
  | none => True
  | some v => ntruthy v = false ∨ isNobj v = false ∨
      ∃ df, v = .nobj df ∧ ∀ kv ∈ df, isNfn kv.2 = false

theorem directiveWrap_not_fn (v : NVal) : isNfn (directiveWrap v) = false := by
  cases v <;> rfl

theorem directiveWrap_id (v : NVal) (hv : isNfn v = false) : directiveWrap v = v := by
  cases v with
  | nfn id => simp [isNfn] at hv
  | undef => rfl
  | nnull => rfl
  | nstr s => rfl
  | nobj f => rfl
  | narr e => rfl

theorem normalizeDirectivesP_establishes (o : List (String × NVal)) :
    DirsState (alookup (normalizeDirectivesP o) "directives") := by
  unfold normalizeDirectivesP
  cases hp : alookup o "directives" with
  | none => simp [hp, DirsState]
  | some dirs =>
      dsimp only
      by_cases ht : ntruthy dirs
      · rw [if_pos ht]
        cases dirs with
        | nobj df =>
            rw [alookup_aset]
            refine Or.inr (Or.inr ⟨_, rfl, ?_⟩)
            intro kv hkv
            rcases List.mem_map.mp hkv with ⟨kv₀, hkv₀, heq⟩
            rw [← heq]
            exact directiveWrap_not_fn kv₀.2
        | undef => rw [hp]; exact Or.inr (Or.inl rfl)
        | nnull => rw [hp]; exact Or.inr (Or.inl rfl)
        | nstr s => rw [hp]; exact Or.inr (Or.inl rfl)
        | nfn id => rw [hp]; exact Or.inr (Or.inl rfl)
        | narr e => rw [hp]; exact Or.inr (Or.inl rfl)
      · rw [if_neg ht, hp]
        exact Or.inl (by simpa using ht)

theorem dirs_rebuild (df : List (String × NVal)) (h : ∀ kv ∈ df, isNfn kv.2 = false) :
    df.map (fun kv => (kv.1, directiveWrap kv.2)) = df := by
  have hcong : ∀ kv ∈ df, (kv.1, directiveWrap kv.2) = id kv := by
    intro kv hkv
    rw [directiveWrap_id kv.2 (h kv hkv)]
    rfl
  exact (List.map_congr_left hcong).trans (List.map_id df)

theorem normalizeDirectivesP_stable (o : List (String × NVal))
    (h : DirsState (alookup o "directives")) : normalizeDirectivesP o = o := by
  cases hp : alookup o "directives" with
  | none => simp [normalizeDirectivesP, hp]
  | some v =>
      rw [hp] at h
      rcases h with hf | hno | ⟨df, rfl, hdf⟩
      · simp [normalizeDirectivesP, hp, hf]
      · simp only [normalizeDirectivesP, hp]
        cases v with
        | nobj f => simp [isNobj] at hno
        | undef => rfl
        | nnull => rfl
        | nstr s => split <;> rfl
        | nfn id => split <;> rfl
        | narr e => split <;> rfl
      · simp only [normalizeDirectivesP, hp]
        have htr : ntruthy (NVal.nobj df) = true := rfl
        rw [if_pos htr]
        rw [dirs_rebuild df hdf]
        exact aset_self o "directives" (.nobj df) hp

/-! ### Frame lemmas: each normalizer touches only its own field -/

theorem alookup_normalizePropsP_ne (o : List (String × NVal)) (k : String)
    (hk : k ≠ "props") : alookup (normalizePropsP o) k = alookup o k := by
  unfold normalizePropsP
  split
  · rfl
  · split
    · exact alookup_aset_ne _ _ _ _ (fun h => hk h.symm)
    · rfl

theorem alookup_normalizeInjectP_ne (o : List (String × NVal)) (k : String)
    (hk : k ≠ "inject") : alookup (normalizeInjectP o) k = alookup o k := by
  unfold normalizeInjectP
  split
  · rfl
  · split
    · exact alookup_aset_ne _ _ _ _ (fun h => hk h.symm)
    · rfl

theorem alookup_normalizeDirectivesP_ne (o : List (String × NVal)) (k : String)
    (hk : k ≠ "directives") : alookup (normalizeDirectivesP o) k = alookup o k := by
  unfold normalizeDirectivesP
  split
  · rfl
  · split
    · split
      · exact alookup_aset_ne _ _ _ _ (fun h => hk h.symm)
      · rfl
    · rfl

/-- **C9**: the field normalizer is idempotent: running the normalization
of props, injections, and directive shorthand (`normalizeAll`, in the order
`mergeOptions` runs them) a second time on an already-normalized Definition
leaves it unchanged. -/
theorem normalize_idempotent (o : List (String × NVal)) :
    normalizeAll (normalizeAll o) = normalizeAll o := by
  unfold normalizeAll
  have hprops : normalizePropsP
      (normalizeDirectivesP (normalizeInjectP (normalizePropsP o))) =
      normalizeDirectivesP (normalizeInjectP (normalizePropsP o)) := by
    apply normalizePropsP_stable
    rw [alookup_normalizeDirectivesP_ne _ _ (by decide),
      alookup_normalizeInjectP_ne _ _ (by decide)]
    exact normalizePropsP_establishes o
  rw [hprops]
  have hinj : normalizeInjectP
      (normalizeDirectivesP (normalizeInjectP (normalizePropsP o))) =
      normalizeDirectivesP (normalizeInjectP (normalizePropsP o)) := by
    apply normalizeInjectP_stable
    rw [alookup_normalizeDirectivesP_ne _ _ (by decide)]
    exact normalizeInjectP_establishes _
  rw [hinj]
  exact normalizeDirectivesP_stable _ (normalizeDirectivesP_establishes _)

/-! ## Heap model of JavaScript objects

Reference identity and in-place mutation are the substance of the remaining
claims, so the merge engine is embedded against an explicit heap: objects
live at `Nat` addresses, values are `JVal`.  A JavaScript function value
carries its identity and its static `.options` property (`undef` for plain
functions); the closures `mergeDataOrFn` allocates are first-class values
tagged 0 (`mergedDataFn`) / 1 (`mergedInstanceDataFn`) capturing both
unevaluated sides.  `===` on objects is address equality, on functions
identity equality; strings compare by value. -/

inductive JVal where
  | undef
  | jnull
  | str (s : String)
  | fn (id : Nat) (opts : JVal)
  | closure (tag : Nat) (pv cv : JVal)
  | ref (a : Nat)
  deriving DecidableEq

/-- A heap object: a plain object with an optional delegation (prototype)
link and own fields in insertion order, or an array. -/
inductive ODat where
  | obj (proto : Option Nat) (fields : List (String × JVal))
  | arr (elems : List JVal)
  deriving DecidableEq

abbrev Heap := List ODat

def hGet (H : Heap) (a : Nat) : Option ODat := H[a]?

def hSet (H : Heap) (a : Nat) (d : ODat) : Heap := H.set a d

/-- JavaScript truthiness for the values of this model. -/
def truthy : JVal → Bool
  | .undef => false
  | .jnull => false
  | .str s => !(s == "")
  | _ => true

def isFnV : JVal → Bool
  | .fn _ _ => true
  | _ => false

/-- Own fields of the object at `a` (arrays contribute none here). -/
def ownFields (H : Heap) (a : Nat) : List (String × JVal) :=
  match hGet H a with
  | some (.obj _ fields) => fields
  | _ => []

def protoOf (H : Heap) (a : Nat) : Option Nat :=
  match hGet H a with
  | some (.obj p _) => p
  | _ => none

/-- Modelled from the spec: `hasOwn` (shared/util.js) — own-layer membership
only. -/
def hasOwnF (H : Heap) (a : Nat) (k : String) : Bool :=
  (alookup (ownFields H a) k).isSome

/-- Property read walking the delegation chain, fueled (chains built by the
engine are acyclic; the fuel `H.length + 1` suffices for any acyclic chain). -/
def getPropFuel (H : Heap) : Nat → Nat → String → JVal
  | 0, _, _ => .undef
  | fuel+1, a, k =>
      match alookup (ownFields H a) k with
      | some v => v
      | none =>
          match protoOf H a with
          | some p => getPropFuel H fuel p k
          | none => .undef

def getProp (H : Heap) (a : Nat) (k : String) : JVal :=
  getPropFuel H (H.length + 1) a k

/-- `v[k]` for an arbitrary value: objects delegate to `getProp`, anything
else reads `undefined`. -/
def getF (H : Heap) (v : JVal) (k : String) : JVal :=
  match v with
  | .ref a => getProp H a k
  | _ => (.undef)

/-- `obj[k] = v` on the object at address `a` (no-op on arrays and absent
addresses). -/
def setOwn (H : Heap) (a : Nat) (k : String) (v : JVal) : Heap :=
  match hGet H a with
  | some (.obj p fields) => hSet H a (.obj p (aset fields k v))
  | _ => H

/-- The keys `for ... in` enumerates from the chain starting at `a`: own
keys first, then non-shadowed inherited keys, each key once (deduplicated
keeping the first occurrence, computed with the source-shaped `dedupeHooks`
accumulator). -/
def chainKeys (H : Heap) : Nat → Option Nat → List String
  | 0, _ => []
  | _, none => []
  | fuel+1, some a => akeys (ownFields H a) ++ chainKeys H fuel (protoOf H a)

def forInKeys (H : Heap) (a : Nat) : List String :=
  dedupeHooks (chainKeys H (H.length + 1) (some a))

def isPlainObjV (H : Heap) (v : JVal) : Bool :=
  match v with
  | .ref a => match hGet H a with | some (.obj _ _) => true | _ => false
  | _ => false

def isArrayV (H : Heap) (v : JVal) : Bool :=
  match v with
  | .ref a => match hGet H a with | some (.arr _) => true | _ => false
  | _ => false

def elemsOf (H : Heap) (v : JVal) : List JVal :=
  match v with
  | .ref a => match hGet H a with | some (.arr es) => es | _ => []
  | _ => []

def allocObj (H : Heap) (p : Option Nat) (fields : List (String × JVal)) : Heap × JVal :=
  (H ++ [.obj p fields], .ref H.length)

def allocArr (H : Heap) (es : List JVal) : Heap × JVal :=
  (H ++ [.arr es], .ref H.length)

/-- Modelled from the spec: `extend(to, from)` (shared/util.js) — for each
`for ... in` key of `from`, `to[key] = from[key]`. -/
def extendH (H : Heap) (toA : Nat) (fromV : JVal) : Heap :=
  match fromV with
  | .ref fa => (forInKeys H fa).foldl (fun h k => setOwn h toA k (getProp h fa k)) H
  | _ => H

/-- The property key a value is coerced to when used as an object index
(only strings occur in canonical inputs; other coercions are schematic). -/
def keyOfJVal : JVal → String
  | .str s => s
  | .undef => "undefined"
  | .jnull => "null"
  | .fn _ _ => "function"
  | .closure _ _ _ => "function"
  | .ref _ => "[object Object]"

/-! ### The merge strategies, heap level (src/core/util/options.js)

`strats.el`/`strats.propsData` warn in development when no instance context
is supplied and then fall through to the default override strategy, so
their observable value behavior equals `defaultStrat` in every build; the
warnings have no state effect and are not modelled. -/

/-- `defaultStrat`: the child value unless it is `undefined`. -/
def defaultStratH (H : Heap) (parentVal childVal : JVal) : Heap × JVal :=
  (H, if childVal = .undef then parentVal else childVal)

/-- Embedding of `mergeDataOrFn` at the heap level: the returned closures
are first-class values capturing both sides unevaluated; no heap effect
occurs at merge time (the deep merge is deferred to invocation). -/
def mergeDataOrFnH (H : Heap) (parentVal childVal : JVal) (vm : Bool) : Heap × JVal :=
  if !vm then
    if !truthy childVal then (H, parentVal)
    else if !truthy parentVal then (H, childVal)
    else (H, .closure 0 parentVal childVal)
  else (H, .closure 1 parentVal childVal)

/-- Embedding of `strats.data`: without an instance context a present
non-function child is rejected (development warning) and the parent is
returned; otherwise `mergeDataOrFn`. -/
def dataStratH (H : Heap) (parentVal childVal : JVal) (vm : Bool) : Heap × JVal :=
  if !vm then
    if truthy childVal ∧ ¬(isFnV childVal = true) then (H, parentVal)
    else mergeDataOrFnH H parentVal childVal false
  else mergeDataOrFnH H parentVal childVal true

/-- Embedding of `mergeHook` at the heap level: concatenate (wrapping a
bare child callable), then deduplicate into a freshly allocated array. -/
def mergeHookH (H : Heap) (parentVal childVal : JVal) : Heap × JVal :=
  if truthy childVal then
    let childList := if isArrayV H childVal then elemsOf H childVal else [childVal]
    let res := if truthy parentVal then elemsOf H parentVal ++ childList else childList
    allocArr H (dedupeHooks res)
  else
    if truthy parentVal then allocArr H (dedupeHooks (elemsOf H parentVal))
    else (H, parentVal)

/-- Embedding of `mergeAssets`: `res = Object.create(parentVal || null)`,
then `extend(res, childVal)` when a child table is present. -/
def mergeAssetsH (H : Heap) (parentVal childVal : JVal) : Heap × JVal :=
  let resA := H.length
  let (H1, resV) := allocObj H (match parentVal with | .ref a => some a | _ => none) []
  if truthy childVal then (extendH H1 resA childVal, resV)
  else (H1, resV)

/-- One child key of the `strats.watch` loop at the heap level. -/
def watchStepH (retA : Nat) (ca : Nat) (h : Heap) (k : String) : Heap :=
  let parentv := getProp h retA k
  let childv := getProp h ca k
  if truthy parentv then
    let plist := if isArrayV h parentv then elemsOf h parentv else [parentv]
    let clist := if isArrayV h childv then elemsOf h childv else [childv]
    let (h2, v) := allocArr h (plist ++ clist)
    setOwn h2 retA k v
  else
    if isArrayV h childv then setOwn h retA k childv
    else
      let (h2, v) := allocArr h [childv]
      setOwn h2 retA k v

/-- Embedding of `strats.watch` at the heap level (the Firefox
`nativeWatch` guards are identities in this model). -/
def watchStratH (H : Heap) (parentVal childVal : JVal) : Heap × JVal :=
  if !truthy childVal then
    allocObj H (match parentVal with | .ref a => some a | _ => none) []
  else if !truthy parentVal then (H, childVal)
  else
    let retA := H.length
    let (H1, retV) := allocObj H none []
    let H2 := extendH H1 retA parentVal
    match childVal with
    | .ref ca => ((forInKeys H2 ca).foldl (watchStepH retA ca) H2, retV)
    | _ => (H2, retV)

/-- Embedding of `strats.props`/`methods`/`inject`/`computed`: child alone
when no parent, else `Object.create(null)` extended with parent then child. -/
def objHashStratH (H : Heap) (parentVal childVal : JVal) : Heap × JVal :=
  if !truthy parentVal then (H, childVal)
  else
    let retA := H.length
    let (H1, retV) := allocObj H none []
    let H2 := extendH H1 retA parentVal
    let H3 := if truthy childVal then extendH H2 retA childVal else H2
    (H3, retV)

/-- Modelled from the spec: the named lifecycle hook fields
(`LIFECYCLE_HOOKS`, shared/constants.js, not under src/). -/
def LIFECYCLE_HOOKS : List String :=
  ["beforeCreate", "created", "beforeMount", "mounted", "beforeUpdate", "updated",
   "beforeDestroy", "destroyed", "activated", "deactivated", "errorCaptured",
   "serverPrefetch"]

/-- Modelled from the spec: the three named-extension-table fields
(`ASSET_TYPES + 's'`, shared/constants.js, not under src/). -/
def ASSET_FIELDS : List String := ["components", "directives", "filters"]

/-- The merge strategy registry: the per-field strategy looked up by field
name, `defaultStrat` for unregistered fields. -/
def applyStrat (H : Heap) (key : String) (parentVal childVal : JVal) (vm : Bool) :
    Heap × JVal :=
  if key = "el" ∨ key = "propsData" then defaultStratH H parentVal childVal
  else if key = "data" then dataStratH H parentVal childVal vm
  else if key = "provide" then mergeDataOrFnH H parentVal childVal vm
  else if key ∈ LIFECYCLE_HOOKS then mergeHookH H parentVal childVal
  else if key ∈ ASSET_FIELDS then mergeAssetsH H parentVal childVal
  else if key = "watch" then watchStratH H parentVal childVal
  else if key = "props" ∨ key = "methods" ∨ key = "inject" ∨ key = "computed" then
    objHashStratH H parentVal childVal
  else defaultStratH H parentVal childVal

/-! ### The normalizers, heap level -/

/-- One entry of the array-form props loop (`while (i--)`, so the caller
folds over the reversed array): a string entry registers
`camelize(name) -> {type: null}` on `res`; other entries are skipped with a
development warning. -/
def normPropsArrStep (resA : Nat) (h : Heap) (v : JVal) : Heap :=
  match v with
  | .str s =>
      let (h2, spec) := allocObj h none [("type", .jnull)]
      setOwn h2 resA (camelize s) spec
  | _ => h

/-- One key of the object-form props loop: `res[camelize(key)] =
isPlainObject(val) ? val : {type: val}`. -/
def normPropsObjStep (resA pa : Nat) (h : Heap) (k : String) : Heap :=
  let val := getProp h pa k
  if isPlainObjV h val then setOwn h resA (camelize k) val
  else
    let (h2, spec) := allocObj h none [("type", val)]
    setOwn h2 resA (camelize k) spec

/-- Embedding of `normalizeProps` at the heap level: when `options.props`
is truthy, build the canonical `res` object and write it over
`options.props` in place. -/
def normalizePropsH (H : Heap) (childA : Nat) : Heap :=
  let props := getProp H childA "props"
  if !truthy props then H
  else
    let resA := H.length
    let (H1, resV) := allocObj H none []
    let H2 :=
      if isArrayV H1 props then (elemsOf H1 props).reverse.foldl (normPropsArrStep resA) H1
      else
        match props with
        | .ref pa =>
            if isPlainObjV H1 props then (forInKeys H1 pa).foldl (normPropsObjStep resA pa) H1
            else H1
        | _ => H1
    setOwn H2 childA "props" resV

/-- One entry of the array-form inject loop:
`normalized[inject[i]] = { from: inject[i] }`. -/
def normInjectArrStep (normA : Nat) (h : Heap) (v : JVal) : Heap :=
  let (h2, fv) := allocObj h none [("from", v)]
  setOwn h2 normA (keyOfJVal v) fv

/-- One key of the object-form inject loop: spec-shaped values become
`extend({from: key}, val)`, others `{from: val}`. -/
def normInjectObjStep (normA pa : Nat) (h : Heap) (k : String) : Heap :=
  let val := getProp h pa k
  if isPlainObjV h val then
    let fvA := h.length
    let (h2, fv) := allocObj h none [("from", .str k)]
    let h3 := extendH h2 fvA val
    setOwn h3 normA k fv
  else
    let (h2, fv) := allocObj h none [("from", val)]
    setOwn h2 normA k fv

/-- Embedding of `normalizeInject` at the heap level: when `options.inject`
is truthy, `options.inject` is first replaced by a fresh empty object
(`normalized`), which is then filled per the input's shape. -/
def normalizeInjectH (H : Heap) (childA : Nat) : Heap :=
  let inject := getProp H childA "inject"
  if !truthy inject then H
  else
    let normA := H.length
    let (H1, normV) := allocObj H none []
    let H2 := setOwn H1 childA "inject" normV
    if isArrayV H2 inject then (elemsOf H2 inject).foldl (normInjectArrStep normA) H2
    else
      match inject with
      | .ref pa =>
          if isPlainObjV H2 inject then (forInKeys H2 pa).foldl (normInjectObjStep normA pa) H2
          else H2
      | _ => H2

/-- One key of the directives loop: a function value is replaced in place
by `{ bind: def, update: def }`. -/
def normDirStep (da : Nat) (h : Heap) (k : String) : Heap :=
  match getProp h da k with
  | .fn id o =>
      let (h2, wrapped) := allocObj h none [("bind", .fn id o), ("update", .fn id o)]
      setOwn h2 da k wrapped
  | _ => h

/-- Embedding of `normalizeDirectives` at the heap level: rewrites
function-valued entries of the `directives` object in place. -/
def normalizeDirectivesH (H : Heap) (childA : Nat) : Heap :=
  match getProp H childA "directives" with
  | .ref da => (forInKeys H da).foldl (normDirStep da) H
  | _ => H

/-- The three normalizers in source order on the child object. -/
def normalizeChildH (H : Heap) (childA : Nat) : Heap :=
  normalizeDirectivesH (normalizeInjectH (normalizePropsH H childA) childA) childA

/-! ### The options merge engine (`mergeOptions`, src/core/util/options.js)

`checkComponents`/`validateComponentName` are development-only diagnostics
with no state effect and no influence on the result, and are omitted.  The
recursion through `extends`/`mixins` is fueled; every claim quantifies over
the fuel or supplies enough of it. -/

def mergeField (ca : Nat) (parentV : JVal) (vm : Bool) (optA : Nat)
    (h : Heap) (k : String) : Heap :=
  let (h2, v) := applyStrat h k (getF h parentV k) (getProp h ca k) vm
  setOwn h2 optA k v

/-- The strategy-application stage of `mergeOptions`: allocate the fresh
result object, apply each field's strategy for every `for ... in` key of
the (extends/mixins-folded) parent, then for every child key not own on the
parent. -/
def mergeFields (H4 : Heap) (parentV : JVal) (ca : Nat) (vm : Bool) : Heap × JVal :=
  let optA := H4.length
  let (H5, optV) := allocObj H4 none []
  let parentKeys := match parentV with | .ref pa => forInKeys H5 pa | _ => []
  let H6 := parentKeys.foldl (mergeField ca parentV vm optA) H5
  let childKeys := forInKeys H6 ca
  let H7 := childKeys.foldl (fun h k =>
    if (match parentV with | .ref pa => hasOwnF h pa k | _ => false) then h
    else mergeField ca parentV vm optA h k) H6
  (H7, optV)

/-- One step of `mergeOptions` with the recursive extends/mixins merges
abstracted as `rec` (tied back to the fueled `mergeOptionsH` below): unwrap
a constructor child to its static options, normalize the child in place,
fold `extends` and then each mixin (in listed order) into the parent unless
the child is already the output of a prior merge (`_base` present), and
apply the per-field strategies into a fresh result object. -/
def mergeOptionsBody (rec : Heap → JVal → JVal → Bool → Heap × JVal)
    (H : Heap) (parent child0 : JVal) (vm : Bool) : Heap × JVal :=
  let child := match child0 with
    | .fn _ opts => opts
    | c => c
  match child with
  | .ref ca =>
      let H3 := normalizeChildH H ca
      let (H4, parentV) :=
        if truthy (getProp H3 ca "_base") then (H3, parent)
        else
          let ext := getProp H3 ca "extends"
          let (Ha, p1) :=
            if truthy ext then rec H3 parent ext vm else (H3, parent)
          let mix := getProp Ha ca "mixins"
          if truthy mix then
            (elemsOf Ha mix).foldl (fun acc m => rec acc.1 acc.2 m vm) (Ha, p1)
          else (Ha, p1)
      mergeFields H4 parentV ca vm
  | _ => (H, .undef)

def mergeOptionsH : Nat → Heap → JVal → JVal → Bool → Heap × JVal
  | 0, H, _, _, _ => (H, .undef)
  | fuel+1, H, parent, child0, vm =>
      mergeOptionsBody (mergeOptionsH fuel) H parent child0 vm

theorem mergeOptionsH_succ (fuel : Nat) (H : Heap) (parent child0 : JVal) (vm : Bool) :
    mergeOptionsH (fuel+1) H parent child0 vm =
      mergeOptionsBody (mergeOptionsH fuel) H parent child0 vm := rfl

/-! ### Frame reasoning: which heap cells the engine writes

`FrameOK n0 S H H'` says the step from `H` to `H'` only grows the heap and
preserves every cell below `n0` whose address is not in the write-target
set `S`. -/

def FrameOK (n0 : Nat) (S : List Nat) (H H' : Heap) : Prop :=
  H.length ≤ H'.length ∧ ∀ a, a < n0 → a ∉ S → H'[a]? = H[a]?

theorem frameOK_refl (n0 : Nat) (S : List Nat) (H : Heap) : FrameOK n0 S H H :=
  ⟨le_refl _, fun _ _ _ => rfl⟩

theorem frameOK_trans {n0 : Nat} {S : List Nat} {H H1 H2 : Heap}
    (h1 : FrameOK n0 S H H1) (h2 : FrameOK n0 S H1 H2) : FrameOK n0 S H H2 :=
  ⟨le_trans h1.1 h2.1, fun a ha hs => (h2.2 a ha hs).trans (h1.2 a ha hs)⟩

theorem frameOK_append (n0 : Nat) (S : List Nat) (H : Heap) (d : ODat)
    (hn : n0 ≤ H.length) : FrameOK n0 S H (H ++ [d]) := by
  refine ⟨by simp, fun a ha _ => ?_⟩
  exact List.getElem?_append_left (lt_of_lt_of_le ha hn)

theorem frameOK_setOwn (n0 : Nat) (S : List Nat) (H : Heap) (a0 : Nat) (k : String)
    (v : JVal) (ha0 : a0 ∈ S ∨ n0 ≤ a0) : FrameOK n0 S H (setOwn H a0 k v) := by
  unfold setOwn
  split
  · refine ⟨by simp [hSet], fun a ha hs => ?_⟩
    have hne : a0 ≠ a := by
      rcases ha0 with h | h
      · exact fun he => hs (he ▸ h)
      · exact fun he => absurd (he ▸ ha) (by omega)
    exact List.getElem?_set_ne hne
  · exact frameOK_refl _ _ _

theorem frameOK_foldl {β : Type} (n0 : Nat) (S : List Nat)
    (step : Heap → β → Heap) (l : List β) :
    ∀ H : Heap, n0 ≤ H.length →
      (∀ h b, b ∈ l → n0 ≤ h.length → FrameOK n0 S h (step h b)) →
      FrameOK n0 S H (l.foldl step H) := by
  induction l with
  | nil => intro H _ _; exact frameOK_refl _ _ _
  | cons b rest ih =>
      intro H hn hstep
      rw [List.foldl_cons]
      have h1 := hstep H b (List.mem_cons_self _ _) hn
      refine frameOK_trans h1 (ih (step H b) (le_trans hn h1.1) ?_)
      intro h b' hb' hh
      exact hstep h b' (List.mem_cons_of_mem _ hb') hh

/-- A fold like `frameOK_foldl` but starting from an already-evolved heap:
the common pattern `FrameOK` from `H` to `l.foldl step H1` with
`FrameOK n0 S H H1` given. -/
theorem frameOK_foldl_from {β : Type} (n0 : Nat) (S : List Nat)
    (step : Heap → β → Heap) (l : List β) (H H1 : Heap)
    (h01 : FrameOK n0 S H H1) (hn : n0 ≤ H.length)
    (hstep : ∀ h b, b ∈ l → n0 ≤ h.length → FrameOK n0 S h (step h b)) :
    FrameOK n0 S H (l.foldl step H1) :=
  frameOK_trans h01 (frameOK_foldl n0 S step l H1 (le_trans hn h01.1) hstep)

theorem frameOK_extendH (n0 : Nat) (S : List Nat) (H : Heap) (toA : Nat) (fromV : JVal)
    (htoA : toA ∈ S ∨ n0 ≤ toA) (hn : n0 ≤ H.length) :
    FrameOK n0 S H (extendH H toA fromV) := by
  unfold extendH
  split
  · exact frameOK_foldl n0 S _ _ H hn
      (fun h k _ _ => frameOK_setOwn n0 S h toA k _ htoA)
  · exact frameOK_refl _ _ _

theorem frameOK_mergeHookH (n0 : Nat) (S : List Nat) (H : Heap) (pv cv : JVal)
    (hn : n0 ≤ H.length) : FrameOK n0 S H (mergeHookH H pv cv).1 := by
  unfold mergeHookH allocArr
  split
  · exact frameOK_append n0 S H _ hn
  · split
    · exact frameOK_append n0 S H _ hn
    · exact frameOK_refl _ _ _

theorem frameOK_mergeAssetsH (n0 : Nat) (S : List Nat) (H : Heap) (pv cv : JVal)
    (hn : n0 ≤ H.length) : FrameOK n0 S H (mergeAssetsH H pv cv).1 := by
  unfold mergeAssetsH allocObj
  dsimp only
  have halloc := frameOK_append n0 S H
    (.obj (match pv with | .ref a => some a | _ => none) []) hn
  split
  · exact frameOK_trans halloc
      (frameOK_extendH n0 S _ H.length cv (Or.inr hn) (le_trans hn halloc.1))
  · exact halloc

theorem frameOK_watchStepH (n0 : Nat) (S : List Nat) (retA ca : Nat) (h : Heap)
    (k : String) (hretA : n0 ≤ retA) (hh : n0 ≤ h.length) :
    FrameOK n0 S h (watchStepH retA ca h k) := by
  unfold watchStepH allocArr
  dsimp only
  split
  · exact frameOK_trans (frameOK_append n0 S h _ hh)
      (frameOK_setOwn n0 S _ retA k _ (Or.inr hretA))
  · split
    · exact frameOK_setOwn n0 S h retA k _ (Or.inr hretA)
    · exact frameOK_trans (frameOK_append n0 S h _ hh)
        (frameOK_setOwn n0 S _ retA k _ (Or.inr hretA))

theorem frameOK_watchStratH (n0 : Nat) (S : List Nat) (H : Heap) (pv cv : JVal)
    (hn : n0 ≤ H.length) : FrameOK n0 S H (watchStratH H pv cv).1 := by
  unfold watchStratH allocObj
  dsimp only
  split
  · exact frameOK_append n0 S H _ hn
  · split
    · exact frameOK_refl _ _ _
    · have halloc := frameOK_append n0 S H (ODat.obj none []) hn
      have hext : FrameOK n0 S H (extendH (H ++ [ODat.obj none []]) H.length pv) :=
        frameOK_trans halloc
          (frameOK_extendH n0 S _ H.length pv (Or.inr hn) (le_trans hn halloc.1))
      split
      · exact frameOK_foldl_from n0 S _ _ H _ hext hn
          (fun h k _ hh => frameOK_watchStepH n0 S H.length _ h k hn hh)
      · exact hext

theorem frameOK_objHashStratH (n0 : Nat) (S : List Nat) (H : Heap) (pv cv : JVal)
    (hn : n0 ≤ H.length) : FrameOK n0 S H (objHashStratH H pv cv).1 := by
  unfold objHashStratH allocObj
  dsimp only
  split
  · exact frameOK_refl _ _ _
  · have halloc := frameOK_append n0 S H (ODat.obj none []) hn
    have hext : FrameOK n0 S H (extendH (H ++ [ODat.obj none []]) H.length pv) :=
      frameOK_trans halloc
        (frameOK_extendH n0 S _ H.length pv (Or.inr hn) (le_trans hn halloc.1))
    split
    · exact frameOK_trans hext
        (frameOK_extendH n0 S _ H.length cv (Or.inr hn) (le_trans hn hext.1))
    · exact hext

theorem defaultStratH_heap (H : Heap) (pv cv : JVal) : (defaultStratH H pv cv).1 = H := rfl

theorem mergeDataOrFnH_heap (H : Heap) (pv cv : JVal) (vm : Bool) :
    (mergeDataOrFnH H pv cv vm).1 = H := by
  unfold mergeDataOrFnH
  split_ifs <;> rfl

theorem dataStratH_heap (H : Heap) (pv cv : JVal) (vm : Bool) :
    (dataStratH H pv cv vm).1 = H := by
  unfold dataStratH
  split_ifs <;> first | rfl | rw [mergeDataOrFnH_heap]

theorem frameOK_applyStrat (n0 : Nat) (S : List Nat) (H : Heap) (key : String)
    (pv cv : JVal) (vm : Bool) (hn : n0 ≤ H.length) :
    FrameOK n0 S H (applyStrat H key pv cv vm).1 := by
  unfold applyStrat
  split
  · rw [defaultStratH_heap]
    exact frameOK_refl _ _ _
  · split
    · rw [dataStratH_heap]
      exact frameOK_refl _ _ _
    · split
      · rw [mergeDataOrFnH_heap]
        exact frameOK_refl _ _ _
      · split
        · exact frameOK_mergeHookH n0 S H pv cv hn
        · split
          · exact frameOK_mergeAssetsH n0 S H pv cv hn
          · split
            · exact frameOK_watchStratH n0 S H pv cv hn
            · split
              · exact frameOK_objHashStratH n0 S H pv cv hn
              · rw [defaultStratH_heap]
                exact frameOK_refl _ _ _

theorem frameOK_normPropsArrStep (n0 : Nat) (S : List Nat) (resA : Nat) (h : Heap)
    (v : JVal) (hresA : n0 ≤ resA) (hh : n0 ≤ h.length) :
    FrameOK n0 S h (normPropsArrStep resA h v) := by
  unfold normPropsArrStep allocObj
  dsimp only
  split
  · exact frameOK_trans (frameOK_append n0 S h _ hh)
      (frameOK_setOwn n0 S _ resA _ _ (Or.inr hresA))
  · exact frameOK_refl _ _ _

theorem frameOK_normPropsObjStep (n0 : Nat) (S : List Nat) (resA pa : Nat) (h : Heap)
    (k : String) (hresA : n0 ≤ resA) (hh : n0 ≤ h.length) :
    FrameOK n0 S h (normPropsObjStep resA pa h k) := by
  unfold normPropsObjStep allocObj
  dsimp only
  split
  · exact frameOK_setOwn n0 S h resA _ _ (Or.inr hresA)
  · exact frameOK_trans (frameOK_append n0 S h _ hh)
      (frameOK_setOwn n0 S _ resA _ _ (Or.inr hresA))

theorem frameOK_normalizePropsH (n0 : Nat) (S : List Nat) (H : Heap) (childA : Nat)
    (hca : childA ∈ S) (hn : n0 ≤ H.length) :
    FrameOK n0 S H (normalizePropsH H childA) := by
  unfold normalizePropsH allocObj
  dsimp only
  split
  · exact frameOK_refl _ _ _
  · refine frameOK_trans ?_ (frameOK_setOwn n0 S _ childA "props" _ (Or.inl hca))
    have halloc := frameOK_append n0 S H (ODat.obj none []) hn
    split
    · exact frameOK_foldl_from n0 S _ _ H _ halloc hn
        (fun h v _ hh => frameOK_normPropsArrStep n0 S H.length h v hn hh)
    · split
      · split
        · exact frameOK_foldl_from n0 S _ _ H _ halloc hn
            (fun h k _ hh => frameOK_normPropsObjStep n0 S H.length _ h k hn hh)
        · exact halloc
      · exact halloc

theorem frameOK_normInjectArrStep (n0 : Nat) (S : List Nat) (normA : Nat) (h : Heap)
    (v : JVal) (hnormA : n0 ≤ normA) (hh : n0 ≤ h.length) :
    FrameOK n0 S h (normInjectArrStep normA h v) := by
  unfold normInjectArrStep allocObj
  dsimp only
  exact frameOK_trans (frameOK_append n0 S h _ hh)
    (frameOK_setOwn n0 S _ normA _ _ (Or.inr hnormA))

theorem frameOK_normInjectObjStep (n0 : Nat) (S : List Nat) (normA pa : Nat) (h : Heap)
    (k : String) (hnormA : n0 ≤ normA) (hh : n0 ≤ h.length) :
    FrameOK n0 S h (normInjectObjStep normA pa h k) := by
  unfold normInjectObjStep allocObj
  dsimp only
  split
  · have halloc := frameOK_append n0 S h (ODat.obj none [("from", .str k)]) hh
    refine frameOK_trans (frameOK_trans halloc ?_)
      (frameOK_setOwn n0 S _ normA _ _ (Or.inr hnormA))
    exact frameOK_extendH n0 S _ h.length _ (Or.inr hh) (le_trans hh halloc.1)
  · exact frameOK_trans (frameOK_append n0 S h _ hh)
      (frameOK_setOwn n0 S _ normA _ _ (Or.inr hnormA))

theorem frameOK_normalizeInjectH (n0 : Nat) (S : List Nat) (H : Heap) (childA : Nat)
    (hca : childA ∈ S) (hn : n0 ≤ H.length) :
    FrameOK n0 S H (normalizeInjectH H childA) := by
  unfold normalizeInjectH allocObj
  dsimp only
  split
  · exact frameOK_refl _ _ _
  · have halloc := frameOK_append n0 S H (ODat.obj none []) hn
    have hset : FrameOK n0 S H
        (setOwn (H ++ [ODat.obj none []]) childA "inject" (.ref H.length)) :=
      frameOK_trans halloc (frameOK_setOwn n0 S _ childA "inject" _ (Or.inl hca))
    split
    · exact frameOK_foldl_from n0 S _ _ H _ hset hn
        (fun h v _ hh => frameOK_normInjectArrStep n0 S H.length h v hn hh)
    · split
      · split
        · exact frameOK_foldl_from n0 S _ _ H _ hset hn
            (fun h k _ hh => frameOK_normInjectObjStep n0 S H.length _ h k hn hh)
        · exact hset
      · exact hset

theorem frameOK_normDirStep (n0 : Nat) (S : List Nat) (da : Nat) (h : Heap)
    (k : String) (hda : da ∈ S) (hh : n0 ≤ h.length) :
    FrameOK n0 S h (normDirStep da h k) := by
  unfold normDirStep allocObj
  dsimp only
  split
  · exact frameOK_trans (frameOK_append n0 S h _ hh)
      (frameOK_setOwn n0 S _ da _ _ (Or.inl hda))
  · exact frameOK_refl _ _ _

theorem frameOK_normalizeDirectivesH (n0 : Nat) (S : List Nat) (H : Heap) (childA : Nat)
    (hdirs : ∀ da, getProp H childA "directives" = .ref da → da ∈ S)
    (hn : n0 ≤ H.length) : FrameOK n0 S H (normalizeDirectivesH H childA) := by
  unfold normalizeDirectivesH
  split
  next da hda =>
    exact frameOK_foldl n0 S _ _ H hn
      (fun h k _ hh => frameOK_normDirStep n0 S da h k (hdirs da hda) hh)
  next => exact frameOK_refl _ _ _

theorem frameOK_normalizeChildH (n0 : Nat) (S : List Nat) (H : Heap) (childA : Nat)
    (hca : childA ∈ S)
    (hdirs : ∀ da,
      getProp (normalizeInjectH (normalizePropsH H childA) childA) childA "directives" =
        .ref da → da ∈ S)
    (hn : n0 ≤ H.length) : FrameOK n0 S H (normalizeChildH H childA) := by
  unfold normalizeChildH
  have h1 := frameOK_normalizePropsH n0 S H childA hca hn
  have h2 := frameOK_normalizeInjectH n0 S (normalizePropsH H childA) childA hca
    (le_trans hn h1.1)
  have h3 := frameOK_normalizeDirectivesH n0 S
    (normalizeInjectH (normalizePropsH H childA) childA) childA hdirs
    (le_trans (le_trans hn h1.1) h2.1)
  exact frameOK_trans (frameOK_trans h1 h2) h3

theorem frameOK_mergeField (n0 : Nat) (S : List Nat) (ca : Nat) (parentV : JVal)
    (vm : Bool) (optA : Nat) (h : Heap) (k : String)
    (hoptA : n0 ≤ optA) (hh : n0 ≤ h.length) :
    FrameOK n0 S h (mergeField ca parentV vm optA h k) := by
  unfold mergeField
  dsimp only
  have hstrat := frameOK_applyStrat n0 S h k (getF h parentV k) (getProp h ca k) vm hh
  exact frameOK_trans hstrat (frameOK_setOwn n0 S _ optA k _ (Or.inr hoptA))

theorem frameOK_mergeFields (n0 : Nat) (S : List Nat) (H4 : Heap) (parentV : JVal)
    (ca : Nat) (vm : Bool) (hn : n0 ≤ H4.length) :
    FrameOK n0 S H4 (mergeFields H4 parentV ca vm).1 ∧
    (mergeFields H4 parentV ca vm).2 = .ref H4.length := by
  unfold mergeFields allocObj
  dsimp only
  refine ⟨?_, rfl⟩
  have halloc := frameOK_append n0 S H4 (ODat.obj none []) hn
  have h6 := frameOK_foldl_from n0 S (mergeField ca parentV vm H4.length)
    (match parentV with | .ref pa => forInKeys (H4 ++ [ODat.obj none []]) pa | _ => [])
    H4 (H4 ++ [ODat.obj none []]) halloc hn
    (fun h k _ hh => frameOK_mergeField n0 S ca parentV vm H4.length h k hn hh)
  refine frameOK_trans h6 (frameOK_foldl n0 S _ _ _ (le_trans hn h6.1) ?_)
  intro h k _ hh
  dsimp only
  split
  · exact frameOK_refl _ _ _
  · exact frameOK_mergeField n0 S ca parentV vm H4.length h k hn hh

theorem frameOK_mergeOptionsH_noext (fuel : Nat) (H : Heap) (parent : JVal) (ca : Nat)
    (vm : Bool) (S : List Nat) (hca : ca ∈ S)
    (hdirs : ∀ da,
      getProp (normalizeInjectH (normalizePropsH H ca) ca) ca "directives" = .ref da →
        da ∈ S)
    (hnx : truthy (getProp (normalizeChildH H ca) ca "_base") = true ∨
           (truthy (getProp (normalizeChildH H ca) ca "extends") = false ∧
            truthy (getProp (normalizeChildH H ca) ca "mixins") = false)) :
    FrameOK H.length S H (mergeOptionsH (fuel+1) H parent (.ref ca) vm).1 ∧
    (mergeOptionsH (fuel+1) H parent (.ref ca) vm).2 =
      .ref (normalizeChildH H ca).length ∧
    H.length ≤ (normalizeChildH H ca).length := by
  have hnorm := frameOK_normalizeChildH H.length S H ca hca hdirs (le_refl _)
  have hfields := frameOK_mergeFields H.length S (normalizeChildH H ca) parent ca vm hnorm.1
  have heq : mergeOptionsH (fuel+1) H parent (.ref ca) vm =
      mergeFields (normalizeChildH H ca) parent ca vm := by
    rw [mergeOptionsH_succ]
    unfold mergeOptionsBody
    dsimp only
    rcases hnx with hb | ⟨hext, hmix⟩
    · rw [if_pos hb]
    · by_cases hb2 : truthy (getProp (normalizeChildH H ca) ca "_base") = true
      · rw [if_pos hb2]
      · have hextn : ¬ truthy (getProp (normalizeChildH H ca) ca "extends") = true := by
          rw [hext]; exact Bool.false_ne_true
        have hmixn : ¬ truthy (getProp (normalizeChildH H ca) ca "mixins") = true := by
          rw [hmix]; exact Bool.false_ne_true
        rw [if_neg hb2, if_neg hextn]
        dsimp only
        rw [if_neg hmixn]
  rw [heq]
  exact ⟨frameOK_trans hnorm hfields.1, hfields.2, hnorm.1⟩

/-! ### Claim theorems: C1 and C10 -/

/-- A concrete input refuting C1's "mutates neither input": parent
`{x: "1"}` at address 0, child `{props: ["a"]}` at address 1 with its props
array at address 2. -/
def c1CounterHeap : Heap :=
  [ODat.obj none [("x", .str "1")], ODat.obj none [("props", .ref 2)],
   ODat.arr [.str "a"]]

/-- **C1 counterexample**: `mergeOptions` mutates the child input: with
child `{props: ["a"]}`, normalization rewrites the child's `props` field in
place to a freshly allocated canonical object, so the child object after
the merge differs from the child object before it. -/
theorem mergeOptions_counterexample_C1 :
    hGet (mergeOptionsH 1 c1CounterHeap (.ref 0) (.ref 1) false).1 1 =
      some (ODat.obj none [("props", .ref 3)]) ∧
    hGet c1CounterHeap 1 = some (ODat.obj none [("props", .ref 2)]) ∧
    hGet (mergeOptionsH 1 c1CounterHeap (.ref 0) (.ref 1) false).1 1 ≠
      hGet c1CounterHeap 1 := by
  refine ⟨by decide, by decide, by decide⟩

/-- **C1 amended**: `mergeOptions` returns a freshly allocated result
object (its address is at or beyond the initial heap end, so it is neither
input) and does not mutate the parent input nor any other pre-existing
object: only the child itself and its `directives` object are rewritten, by
field normalization (the deferred state-factory/value-provision mutation
happens only at first factory invocation).  Stated for a child that is not
itself recursively folded (no `extends`/`mixins`, or already merged
(`_base`)); every pre-existing address other than the child and its
directives object keeps its exact content. -/
theorem mergeOptions_fresh_and_parent_unmutated (fuel : Nat) (H : Heap) (parent : JVal)
    (ca : Nat) (vm : Bool) (a : Nat) (ha : a < H.length) (hane : a ≠ ca)
    (hdirs : ∀ da,
      getProp (normalizeInjectH (normalizePropsH H ca) ca) ca "directives" = .ref da →
        a ≠ da)
    (hnx : truthy (getProp (normalizeChildH H ca) ca "_base") = true ∨
           (truthy (getProp (normalizeChildH H ca) ca "extends") = false ∧
            truthy (getProp (normalizeChildH H ca) ca "mixins") = false)) :
    (mergeOptionsH (fuel+1) H parent (.ref ca) vm).2 =
      .ref (normalizeChildH H ca).length ∧
    H.length ≤ (normalizeChildH H ca).length ∧
    ((mergeOptionsH (fuel+1) H parent (.ref ca) vm).1)[a]? = H[a]? := by
  have key := frameOK_mergeOptionsH_noext fuel H parent ca vm
    (ca :: (match getProp (normalizeInjectH (normalizePropsH H ca) ca) ca "directives" with
            | .ref da => [da] | _ => []))
    (List.mem_cons_self _ _)
    (fun da hda => by
      rw [hda]
      exact List.mem_cons_of_mem _ (List.mem_cons_self _ _))
    hnx
  refine ⟨key.2.1, key.2.2, ?_⟩
  apply key.1.2 a ha
  intro hmem
  rcases List.mem_cons.mp hmem with h | h
  · exact hane h
  · cases hd : getProp (normalizeInjectH (normalizePropsH H ca) ca) ca "directives" with
    | ref da =>
        rw [hd] at h
        simp at h
        exact hdirs da hd h
    | undef => rw [hd] at h; simp at h
    | jnull => rw [hd] at h; simp at h
    | str s => rw [hd] at h; simp at h
    | fn i o => rw [hd] at h; simp at h
    | closure t p c => rw [hd] at h; simp at h

/-- A concrete input for the amended C1: parent `{x: "1"}`, child
`{created: f}` (a hook, no extends/mixins/directives). -/
def c1WitnessHeap : Heap :=
  [ODat.obj none [("x", .str "1")], ODat.obj none [("created", .fn 7 .undef)]]

/-- Witness for the amended C1 at a concrete input: the result is the fresh
address 2 and the parent cell is untouched. -/
theorem mergeOptions_fresh_and_parent_unmutated_witness :
    (mergeOptionsH 1 c1WitnessHeap (.ref 0) (.ref 1) false).2 = .ref 2 ∧
    ((mergeOptionsH 1 c1WitnessHeap (.ref 0) (.ref 1) false).1)[0]? =
      some (ODat.obj none [("x", .str "1")]) := by
  have h := mergeOptions_fresh_and_parent_unmutated 0 c1WitnessHeap (.ref 0) 1 false 0
    (by decide) (by decide)
    (fun da hda => by
      have he : getProp (normalizeInjectH (normalizePropsH c1WitnessHeap 1) 1) 1
          "directives" = JVal.undef := by decide
      rw [he] at hda
      exact absurd hda (by simp))
    (Or.inr ⟨by decide, by decide⟩)
  constructor
  · rw [h.1]
    decide
  · rw [h.2.2]
    decide

/-- **C10**: when the child argument of `mergeOptions` is a callable
carrying a static options object (a constructor), the merge is performed
against that options object in place of the callable itself, yielding the
same result as passing the options object directly. -/
theorem mergeOptions_constructor_child (fuel : Nat) (H : Heap) (parent : JVal)
    (id a : Nat) (vm : Bool) :
    mergeOptionsH fuel H parent (.fn id (.ref a)) vm =
      mergeOptionsH fuel H parent (.ref a) vm := by
  cases fuel with
  | zero => rfl
  | succ n => rfl

/-! ## Named asset resolution (`resolveAsset`, src/core/util/options.js) -/

/-- Embedding of `resolveAsset(options, type, id)`: a non-string request is
not-found immediately; otherwise check local registration variations first
(exact, camelized, capitalized-camelized, own layer only), then fall back
to the full delegation chain for the three variants in the same order
(`assets[id] || assets[camelizedId] || assets[PascalCaseId]`). -/
def resolveAssetH (H : Heap) (optionsV : JVal) (ty : String) (id : JVal) : JVal :=
  match id with
  | .str s =>
      match getF H optionsV ty with
      | .ref aa =>
          if hasOwnF H aa s then getProp H aa s
          else
            let camelizedId := camelize s
            if hasOwnF H aa camelizedId then getProp H aa camelizedId
            else
              let pascalCaseId := capitalize camelizedId
              if hasOwnF H aa pascalCaseId then getProp H aa pascalCaseId
              else
                let r1 := getProp H aa s
                if truthy r1 then r1
                else
                  let r2 := getProp H aa camelizedId
                  if truthy r2 then r2
                  else getProp H aa pascalCaseId
      | _ => .undef
  | _ => (.undef)

/-- A local (own-layer-only) lookup attempt, as the spec words it. -/
def localLookup (H : Heap) (aa : Nat) (k : String) : Option JVal :=
  if hasOwnF H aa k then some (getProp H aa k) else none

/-- A delegation-chain lookup attempt (found when the chained read is
truthy). -/
def chainLookup (H : Heap) (aa : Nat) (k : String) : Option JVal :=
  if truthy (getProp H aa k) then some (getProp H aa k) else none

/-- First successful attempt of a list of attempts. -/
def firstHit : List (Option JVal) → Option JVal
  | [] => none
  | some v :: _ => some v
  | none :: rest => firstHit rest

/-- `resolveAsset` stated the way the spec words it: try, in order, the
local layer for the exact name, its canonical-case transform, and its
capitalized-canonical-case transform; then the full delegation chain for
the three variants in the same order; not-found (`undefined`) otherwise. -/
def resolveAssetSpec (H : Heap) (optionsV : JVal) (ty : String) (id : JVal) : JVal :=
  match id with
  | .str s =>
      match getF H optionsV ty with
      | .ref aa =>
          let variants := [s, camelize s, capitalize (camelize s)]
          match firstHit (variants.map (localLookup H aa)) with
          | some v => v
          | none =>
              match firstHit ((variants.take 2).map (chainLookup H aa)) with
              | some v => v
              | none => getProp H aa (capitalize (camelize s))
      | _ => .undef
  | _ => (.undef)

/-- **C5**: `resolveAsset` returns not-found immediately for a non-string
name, and otherwise tries exactly the spec's six attempts in order: the
kind's table's local entries for the exact name, the camelized name, and
the capitalized camelized name, then the full delegation chain for the
three variants in that order. -/
theorem resolveAsset_order (H : Heap) (optionsV : JVal) (ty : String) (id : JVal) :
    resolveAssetH H optionsV ty id = resolveAssetSpec H optionsV ty id ∧
    ((∀ s, id ≠ .str s) → resolveAssetH H optionsV ty id = .undef) := by
  constructor
  · cases id with
    | str s =>
        cases hassets : getF H optionsV ty with
        | ref aa =>
            simp only [resolveAssetH, resolveAssetSpec, hassets, localLookup, chainLookup,
              List.map, List.take, firstHit]
            by_cases h1 : hasOwnF H aa s
            · simp [h1, firstHit]
            · simp only [h1, Bool.false_eq_true, if_false]
              by_cases h2 : hasOwnF H aa (camelize s)
              · simp [h2, firstHit]
              · simp only [h2, Bool.false_eq_true, if_false]
                by_cases h3 : hasOwnF H aa (capitalize (camelize s))
                · simp [h3, firstHit]
                · simp only [h3, Bool.false_eq_true, if_false]
                  by_cases h4 : truthy (getProp H aa s)
                  · simp [h4, firstHit]
                  · simp only [h4, Bool.false_eq_true, if_false, firstHit]
                    by_cases h5 : truthy (getProp H aa (camelize s))
                    · simp [h5, firstHit]
                    · simp [h5, firstHit]
        | undef => simp [resolveAssetH, resolveAssetSpec, hassets]
        | jnull => simp [resolveAssetH, resolveAssetSpec, hassets]
        | str s' => simp [resolveAssetH, resolveAssetSpec, hassets]
        | fn i o => simp [resolveAssetH, resolveAssetSpec, hassets]
        | closure t p c => simp [resolveAssetH, resolveAssetSpec, hassets]
    | undef => exact rfl
    | jnull => exact rfl
    | fn i o => exact rfl
    | closure t p c => exact rfl
    | ref a => exact rfl
  · intro hns
    cases id with
    | str s => exact absurd rfl (hns s)
    | undef => rfl
    | jnull => rfl
    | fn i o => rfl
    | closure t p c => rfl
    | ref a => rfl

/-- A concrete asset table for the C5 witness: an entry registered as
`myWidget`, requested as `my-widget`. -/
def c5Heap : Heap :=
  [ODat.obj none [("myWidget", .fn 5 .undef)], ODat.obj none [("components", .ref 0)]]

/-- Witness for C5: requesting `"my-widget"` finds the entry registered as
`"myWidget"` via the canonical-case transform, and a non-string request is
not-found. -/
theorem resolveAsset_order_witness :
    resolveAssetH c5Heap (.ref 1) "components" (.str "my-widget") = .fn 5 .undef ∧
    resolveAssetH c5Heap (.ref 1) "components" .undef = .undef := by
  have h2 := resolveAsset_order c5Heap (.ref 1) "components" .undef
  refine ⟨by decide, h2.2 (fun s => by simp)⟩

/-! ## Asset table merging (`mergeAssets`, src/core/util/options.js) -/

theorem dedupKeepFirst_eq_self {α : Type} [DecidableEq α] (l : List α) (h : l.Nodup) :
    dedupKeepFirst l = l := by
  induction l with
  | nil => simp [dedupKeepFirst]
  | cons x xs ih =>
      rw [dedupKeepFirst]
      simp only [List.nodup_cons] at h
      have hf : xs.filter (fun y => y ≠ x) = xs := by
        apply List.filter_eq_self.mpr
        intro a ha
        simp only [ne_eq, decide_eq_true_eq]
        intro he
        exact h.1 (he ▸ ha)
      rw [hf, ih h.2]

theorem lt_length_of_hGet_some (H : Heap) (a : Nat) (d : ODat) (h : hGet H a = some d) :
    a < H.length :=
  List.getElem?_eq_some.mp h |>.1

theorem hGet_append_left (H : Heap) (d : ODat) (a : Nat) (ha : a < H.length) :
    hGet (H ++ [d]) a = hGet H a :=
  List.getElem?_append_left ha

theorem hGet_append_self (H : Heap) (d : ODat) : hGet (H ++ [d]) H.length = some d := by
  simp [hGet]

theorem hGet_setOwn_ne (H : Heap) (a b : Nat) (k : String) (v : JVal) (hne : b ≠ a) :
    hGet (setOwn H a k v) b = hGet H b := by
  unfold setOwn
  split
  · exact List.getElem?_set_ne (fun he => hne he.symm)
  · rfl

theorem hGet_setOwn_self (H : Heap) (a : Nat) (k : String) (v : JVal)
    (p : Option Nat) (f : List (String × JVal)) (h : hGet H a = some (.obj p f)) :
    hGet (setOwn H a k v) a = some (.obj p (aset f k v)) := by
  unfold setOwn
  rw [h]
  exact List.getElem?_set_eq_of_lt _ (lt_length_of_hGet_some H a _ h)

theorem getProp_own_noproto (H : Heap) (ca : Nat) (cf : List (String × JVal))
    (k : String) (h : hGet H ca = some (.obj none cf)) :
    getProp H ca k = (alookup cf k).getD .undef := by
  unfold getProp getPropFuel
  simp only [ownFields, protoOf, h]
  cases alookup cf k <;> rfl

theorem copy_fold (KS : List String) :
    ∀ (h : Heap) (r ca : Nat) (cf fl : List (String × JVal)) (pa : Option Nat),
      r ≠ ca → hGet h ca = some (.obj none cf) → hGet h r = some (.obj pa fl) →
      (∀ b, b ≠ r →
        hGet (KS.foldl (fun h k => setOwn h r k (getProp h ca k)) h) b = hGet h b) ∧
      hGet (KS.foldl (fun h k => setOwn h r k (getProp h ca k)) h) r =
        some (.obj pa (KS.foldl (fun acc k => aset acc k ((alookup cf k).getD .undef)) fl)) := by
  induction KS with
  | nil => intro h r ca cf fl pa _ _ hr; exact ⟨fun b _ => rfl, hr⟩
  | cons k rest ih =>
      intro h r ca cf fl pa hne hca hr
      rw [List.foldl_cons, List.foldl_cons]
      have hval : getProp h ca k = (alookup cf k).getD .undef :=
        getProp_own_noproto h ca cf k hca
      have hca' : hGet (setOwn h r k (getProp h ca k)) ca = some (.obj none cf) := by
        rw [hGet_setOwn_ne h r ca k _ (fun he => hne he.symm)]
        exact hca
      have hr' : hGet (setOwn h r k (getProp h ca k)) r =
          some (.obj pa (aset fl k ((alookup cf k).getD .undef))) := by
        rw [hval]
        exact hGet_setOwn_self h r k _ pa fl hr
      obtain ⟨hframe, hfin⟩ := ih (setOwn h r k (getProp h ca k)) r ca cf
        (aset fl k ((alookup cf k).getD .undef)) pa hne hca' hr'
      refine ⟨?_, hfin⟩
      intro b hb
      rw [hframe b hb, hGet_setOwn_ne h r b k _ hb]

theorem alookup_of_mem_nodup {α : Type} (l : List (String × α)) (k : String) (v : α)
    (hnd : (akeys l).Nodup) (hmem : (k, v) ∈ l) : alookup l k = some v := by
  induction l with
  | nil => cases hmem
  | cons kv rest ih =>
      simp only [akeys_cons, List.nodup_cons] at hnd
      rcases List.mem_cons.mp hmem with h | h
      · rw [← h]
        simp
      · have hk : kv.1 ≠ k := by
          intro he
          exact hnd.1 (he ▸ (by simpa [akeys] using List.mem_map_of_mem Prod.fst h))
        obtain ⟨k0, v0⟩ := kv
        simp only [alookup_cons, if_neg hk]
        exact ih hnd.2 h

theorem keysfold_rebuild (cf : List (String × JVal)) (hnd : (akeys cf).Nodup) :
    (akeys cf).foldl (fun acc k => aset acc k ((alookup cf k).getD .undef)) [] = cf := by
  have h1 : (akeys cf).foldl (fun acc k => aset acc k ((alookup cf k).getD .undef)) [] =
      cf.foldl (fun acc kv => aset acc kv.1 ((alookup cf kv.1).getD .undef)) [] := by
    rw [akeys, List.foldl_map]
  rw [h1]
  have h2 : cf.foldl (fun acc kv => aset acc kv.1 ((alookup cf kv.1).getD .undef)) [] =
      cf.foldl (fun acc kv => aset acc kv.1 kv.2) [] := by
    apply List.foldl_ext
    intro acc kv hkv
    rw [alookup_of_mem_nodup cf kv.1 kv.2 hnd (by obtain ⟨a, b⟩ := kv; exact hkv)]
    rfl
  rw [h2, foldl_aset_fresh cf [] (by intro kv _; simp) hnd]
  simp

theorem getProp_one_hop (H : Heap) (r pa : Nat) (flds pf : List (String × JVal))
    (pp : Option Nat) (k : String) (v : JVal)
    (hr : hGet H r = some (.obj (some pa) flds)) (hmiss : alookup flds k = none)
    (hpa : hGet H pa = some (.obj pp pf)) (hhit : alookup pf k = some v) :
    getProp H r k = v := by
  have hrlt := lt_length_of_hGet_some H r _ hr
  obtain ⟨n, hn⟩ : ∃ n, H.length = n + 1 := ⟨H.length - 1, by omega⟩
  unfold getProp
  rw [hn]
  simp only [getPropFuel, ownFields, protoOf, hr, hmiss, hpa, hhit]

/-- **C6**: merging the named-extension-table fields yields a new
AssetTable (at the fresh address `H.length`) whose delegation link is the
parent table's address itself, not a copy, with the child's own entries
copied onto the new table's local layer; when the child is absent the
result is the fresh delegating empty table; consequently a name registered
into the parent table after the child table was derived remains visible
through the child's lookup, provided the child never locally registered
that name. -/
theorem mergeAssets_delegation (H : Heap) (pa ca : Nat) (cf pf : List (String × JVal))
    (pproto : Option Nat)
    (hpa : hGet H pa = some (.obj pproto pf))
    (hca : hGet H ca = some (.obj none cf))
    (hnd : (akeys cf).Nodup) :
    (mergeAssetsH H (.ref pa) (.ref ca)).2 = .ref H.length ∧
    hGet (mergeAssetsH H (.ref pa) (.ref ca)).1 H.length = some (.obj (some pa) cf) ∧
    (mergeAssetsH H (.ref pa) .undef).1 = H ++ [.obj (some pa) []] ∧
    (mergeAssetsH H (.ref pa) .undef).2 = .ref H.length ∧
    (∀ (name : String) (impl : JVal), name ∉ akeys cf →
      getProp (setOwn (mergeAssetsH H (.ref pa) (.ref ca)).1 pa name impl)
        H.length name = impl) := by
  have hcalt := lt_length_of_hGet_some H ca _ hca
  have hpalt := lt_length_of_hGet_some H pa _ hpa
  have hH1ca : hGet (H ++ [ODat.obj (some pa) []]) ca = some (.obj none cf) := by
    rw [hGet_append_left _ _ _ hcalt]; exact hca
  have hH1r : hGet (H ++ [ODat.obj (some pa) []]) H.length =
      some (.obj (some pa) []) := hGet_append_self _ _
  have hkeys : forInKeys (H ++ [ODat.obj (some pa) []]) ca = akeys cf := by
    unfold forInKeys
    have hlen : (H ++ [ODat.obj (some pa) []]).length + 1 = (H.length + 1) + 1 := by
      simp
    rw [hlen]
    have hchain : chainKeys (H ++ [ODat.obj (some pa) []]) ((H.length + 1) + 1)
        (some ca) = akeys cf := by
      simp only [chainKeys, ownFields, protoOf, hH1ca]
      simp
    rw [hchain, dedupeHooks_eq_dedupKeepFirst, dedupKeepFirst_eq_self _ hnd]
  obtain ⟨hframe, hfin⟩ := copy_fold (akeys cf) (H ++ [ODat.obj (some pa) []])
    H.length ca cf [] (some pa) (by omega) hH1ca hH1r
  have hma : mergeAssetsH H (.ref pa) (.ref ca) =
      ((akeys cf).foldl (fun h k => setOwn h H.length k (getProp h ca k))
        (H ++ [ODat.obj (some pa) []]), .ref H.length) := by
    unfold mergeAssetsH allocObj extendH
    dsimp only
    have ht : truthy (JVal.ref ca) = true := rfl
    rw [if_pos ht, hkeys]
  have hGr : hGet ((akeys cf).foldl (fun h k => setOwn h H.length k (getProp h ca k))
      (H ++ [ODat.obj (some pa) []])) H.length = some (.obj (some pa) cf) := by
    rw [hfin, keysfold_rebuild cf hnd]
  refine ⟨by rw [hma], by rw [hma]; exact hGr, by rfl, by rfl, ?_⟩
  intro name impl hname
  rw [hma]
  dsimp only
  have hGpa : hGet ((akeys cf).foldl (fun h k => setOwn h H.length k (getProp h ca k))
      (H ++ [ODat.obj (some pa) []])) pa = some (.obj pproto pf) := by
    rw [hframe pa (by omega), hGet_append_left _ _ _ hpalt]
    exact hpa
  have hr'' : hGet (setOwn ((akeys cf).foldl
      (fun h k => setOwn h H.length k (getProp h ca k))
      (H ++ [ODat.obj (some pa) []])) pa name impl) H.length =
      some (.obj (some pa) cf) := by
    rw [hGet_setOwn_ne _ _ _ _ _ (by omega)]
    exact hGr
  have hpa'' : hGet (setOwn ((akeys cf).foldl
      (fun h k => setOwn h H.length k (getProp h ca k))
      (H ++ [ODat.obj (some pa) []])) pa name impl) pa =
      some (.obj pproto (aset pf name impl)) :=
    hGet_setOwn_self _ _ _ _ _ _ hGpa
  exact getProp_one_hop _ H.length pa cf (aset pf name impl) pproto name impl
    hr'' (alookup_eq_none_of_not_mem_akeys cf name hname) hpa'' (alookup_aset pf name impl)

/-- A concrete state for the C6 witness: parent table `{old: f1}` at 0,
child table `{mine: f2}` at 1. -/
def c6Heap : Heap :=
  [ODat.obj none [("old", .fn 1 .undef)], ODat.obj none [("mine", .fn 2 .undef)]]

/-- Witness for C6 at a concrete input: the merged table delegates to the
parent table's address, carries the child's entry locally, and a name
registered into the parent afterwards resolves through the child table. -/
theorem mergeAssets_delegation_witness :
    hGet (mergeAssetsH c6Heap (.ref 0) (.ref 1)).1 2 =
      some (.obj (some 0) [("mine", .fn 2 .undef)]) ∧
    getProp (setOwn (mergeAssetsH c6Heap (.ref 0) (.ref 1)).1 0 "late" (.fn 9 .undef))
      2 "late" = .fn 9 .undef := by
  have h := mergeAssets_delegation c6Heap 0 1 [("mine", .fn 2 .undef)]
    [("old", .fn 1 .undef)] none (by decide) (by decide) (by decide)
  exact ⟨h.2.1, h.2.2.2.2 "late" (.fn 9 .undef) (by decide)⟩

/-! ## Constructor options resolution (`resolveConstructorOptions` /
`resolveModifiedOptions`, src/core/instance/init.js)

A lineage is a list of constructor nodes, root first; the node at index
`i+1` has the node at index `i` as its super, and the root has none.  Each
node carries the four cached values the source keeps on the constructor
(`options`, `superOptions`, `sealedOptions`, `extendOptions`) plus the
identity of the constructor function itself (what
`options.components[options.name] = Ctor` registers).  `===` between
resolved options is `JVal` equality (address equality on objects). -/

structure CtorNode where
  options : JVal
  superOptions : JVal
  sealedOptions : JVal
  extendOptions : JVal
  selfFn : Nat
  deriving DecidableEq

structure RState where
  heap : Heap
  ctors : List CtorNode
  deriving DecidableEq

/-- Embedding of `resolveModifiedOptions(Ctor)`: for each `for ... in` key
of the latest (current resolved) options whose value differs by reference
from the corresponding field of the sealed snapshot, record the latest
value; `undefined` (here `none`) when nothing differs. -/
def resolveModifiedOptionsH (H : Heap) (latest sealed : JVal) :
    Option (List (String × JVal)) :=
  match latest with
  | .ref la =>
      let diffs := (forInKeys H la).foldl (fun acc k =>
        if getProp H la k = getF H sealed k then acc
        else aset acc k (getProp H la k)) []
      if diffs.isEmpty then none else some diffs
  | _ => none

/-- `if (modifiedOptions) extend(Ctor.extendOptions, modifiedOptions)`. -/
def foldModifiedH (H : Heap) (extendOptions : JVal) :
    Option (List (String × JVal)) → Heap
  | some ml =>
      match extendOptions with
      | .ref ea => ml.foldl (fun h kv => setOwn h ea kv.1 kv.2) H
      | _ => H
  | none => H

/-- `if (options.name) { options.components[options.name] = Ctor }`. -/
def registerSelfH (H : Heap) (opts : JVal) (selfFn : Nat) : Heap :=
  match opts with
  | .ref oa =>
      let nm := getProp H oa "name"
      if truthy nm then
        match getProp H oa "components" with
        | .ref compA => setOwn H compA (keyOfJVal nm) (.fn selfFn .undef)
        | _ => H
      else H
  | _ => H

/-- Embedding of `resolveConstructorOptions`: the root returns its options
unchanged; a node with a super resolves the super first, takes the fast
path (current options unchanged) when the fresh super options are
reference-identical to the cached ones, and otherwise re-caches the super
options, folds the late edits into `extendOptions`, recomputes
`options = mergeOptions(superOptions, extendOptions)`, registers the node
under its own name, and returns the recomputed options.  (The source
assigns `Ctor.superOptions` before computing the modified options; the
computation reads only `Ctor.options` and `Ctor.sealedOptions`, so the
single node update below is observationally identical.) -/
def resolveCtor (mfuel : Nat) : RState → Nat → RState × JVal
  | st, 0 =>
      match st.ctors[0]? with
      | some c => (st, c.options)
      | none => (st, .undef)
  | st, i+1 =>
      let r := resolveCtor mfuel st i
      match r.1.ctors[i+1]? with
      | none => (r.1, .undef)
      | some c =>
          if r.2 = c.superOptions then (r.1, c.options)
          else
            let h2 := foldModifiedH r.1.heap c.extendOptions
              (resolveModifiedOptionsH r.1.heap c.options c.sealedOptions)
            let mr := mergeOptionsH mfuel h2 r.2 c.extendOptions false
            let h4 := registerSelfH mr.1 mr.2 c.selfFn
            ({ heap := h4,
               ctors := r.1.ctors.set (i+1)
                 { c with superOptions := r.2, options := mr.2 } }, mr.2)

theorem resolveCtor_ctors_above (mfuel : Nat) :
    ∀ (i : Nat) (st : RState) (j : Nat), i < j →
      ((resolveCtor mfuel st i).1).ctors[j]? = st.ctors[j]? := by
  intro i
  induction i with
  | zero =>
      intro st j _
      cases h : st.ctors[0]? <;> simp [resolveCtor, h]
  | succ i ih =>
      intro st j hij
      simp only [resolveCtor]
      cases h1 : ((resolveCtor mfuel st i).1).ctors[i+1]? with
      | none =>
          dsimp only
          exact ih st j (by omega)
      | some c =>
          dsimp only
          by_cases h2 : (resolveCtor mfuel st i).2 = c.superOptions
          · rw [if_pos h2]
            exact ih st j (by omega)
          · rw [if_neg h2]
            dsimp only
            rw [List.getElem?_set_ne (by omega)]
            exact ih st j (by omega)

theorem resolveCtor_stable (mfuel : Nat) :
    ∀ (i : Nat) (st st' : RState) (s : JVal),
      resolveCtor mfuel st i = (st, s) →
      (∀ j, j ≤ i → st'.ctors[j]? = st.ctors[j]?) →
      resolveCtor mfuel st' i = (st', s) := by
  intro i
  induction i with
  | zero =>
      intro st st' s hres hagree
      have h0 : st'.ctors[0]? = st.ctors[0]? := hagree 0 (by omega)
      cases h : st.ctors[0]? with
      | none =>
          simp only [resolveCtor, h] at hres
          rw [Prod.mk.injEq] at hres
          simp only [resolveCtor, h0, h]
          exact congrArg _ hres.2
      | some c =>
          simp only [resolveCtor, h] at hres
          rw [Prod.mk.injEq] at hres
          simp only [resolveCtor, h0, h]
          exact congrArg _ hres.2
  | succ i ih =>
      intro st st' s hres hagree
      rw [resolveCtor] at hres
      cases hA : ((resolveCtor mfuel st i).1).ctors[i+1]? with
      | none =>
          rw [hA] at hres
          dsimp only at hres
          rw [Prod.mk.injEq] at hres
          -- the inner resolve left the state unchanged
          have hinner : resolveCtor mfuel st i = (st, (resolveCtor mfuel st i).2) :=
            Prod.ext_iff.mpr ⟨hres.1, rfl⟩
          have hinner' := ih st st' (resolveCtor mfuel st i).2 hinner
            (fun j hj => hagree j (by omega))
          rw [resolveCtor, hinner']
          dsimp only
          have h1 : st.ctors[i+1]? = ((resolveCtor mfuel st i).1).ctors[i+1]? := by
            rw [hres.1]
          rw [hagree (i+1) (by omega), h1, hA]
          dsimp only
          exact congrArg _ hres.2
      | some c =>
          rw [hA] at hres
          dsimp only at hres
          by_cases h2 : (resolveCtor mfuel st i).2 = c.superOptions
          · rw [if_pos h2] at hres
            rw [Prod.mk.injEq] at hres
            have hinner : resolveCtor mfuel st i = (st, (resolveCtor mfuel st i).2) :=
              Prod.ext_iff.mpr ⟨hres.1, rfl⟩
            have hinner' := ih st st' (resolveCtor mfuel st i).2 hinner
              (fun j hj => hagree j (by omega))
            rw [resolveCtor, hinner']
            dsimp only
            have h1 : st.ctors[i+1]? = ((resolveCtor mfuel st i).1).ctors[i+1]? := by
              rw [hres.1]
            rw [hagree (i+1) (by omega), h1, hA]
            dsimp only
            rw [if_pos h2]
            exact congrArg _ hres.2
          · -- the slow path cannot return the input state unchanged
            exfalso
            rw [if_neg h2] at hres
            rw [Prod.mk.injEq] at hres
            have hlt : i + 1 < ((resolveCtor mfuel st i).1).ctors.length :=
              (List.getElem?_eq_some.mp hA).1
            have hx := congrArg (fun t : RState => t.ctors[i+1]?) hres.1
            dsimp only at hx
            rw [List.getElem?_set_eq_of_lt _ (by simpa using hlt)] at hx
            have hup : st.ctors[i+1]? = some c := by
              rw [← resolveCtor_ctors_above mfuel i st (i+1) (by omega)]
              exact hA
            rw [hup] at hx
            exact h2 (congrArg CtorNode.superOptions (Option.some.inj hx))

theorem resolveCtor_idem (mfuel : Nat) :
    ∀ (i : Nat) (st st2 : RState) (v : JVal),
      resolveCtor mfuel st i = (st2, v) →
      resolveCtor mfuel st2 i = (st2, v) := by
  intro i
  induction i with
  | zero =>
      intro st st2 v hres
      cases h : st.ctors[0]? with
      | none =>
          simp only [resolveCtor, h] at hres
          rw [Prod.mk.injEq] at hres
          obtain ⟨h1, h2⟩ := hres
          subst h1; subst h2
          simp [resolveCtor, h]
      | some c =>
          simp only [resolveCtor, h] at hres
          rw [Prod.mk.injEq] at hres
          obtain ⟨h1, h2⟩ := hres
          subst h1; subst h2
          simp [resolveCtor, h]
  | succ i ih =>
      intro st st2 v hres
      rw [resolveCtor] at hres
      cases hA : ((resolveCtor mfuel st i).1).ctors[i+1]? with
      | none =>
          rw [hA] at hres
          dsimp only at hres
          rw [Prod.mk.injEq] at hres
          obtain ⟨h1, h2⟩ := hres
          have hin : resolveCtor mfuel st i = (st2, (resolveCtor mfuel st i).2) :=
            Prod.ext_iff.mpr ⟨h1, rfl⟩
          have hin2 := ih st st2 (resolveCtor mfuel st i).2 hin
          rw [resolveCtor, hin2]
          dsimp only
          have hsc : st2.ctors[i+1]? = none := by rw [← h1]; exact hA
          rw [hsc]
          dsimp only
          exact congrArg _ h2
      | some c =>
          rw [hA] at hres
          dsimp only at hres
          by_cases hfast : (resolveCtor mfuel st i).2 = c.superOptions
          · rw [if_pos hfast] at hres
            rw [Prod.mk.injEq] at hres
            obtain ⟨h1, h2⟩ := hres
            have hin : resolveCtor mfuel st i = (st2, (resolveCtor mfuel st i).2) :=
              Prod.ext_iff.mpr ⟨h1, rfl⟩
            have hin2 := ih st st2 (resolveCtor mfuel st i).2 hin
            rw [resolveCtor, hin2]
            dsimp only
            have hsc : st2.ctors[i+1]? = some c := by rw [← h1]; exact hA
            rw [hsc]
            dsimp only
            rw [if_pos hfast]
            exact congrArg _ h2
          · rw [if_neg hfast] at hres
            rw [Prod.mk.injEq] at hres
            obtain ⟨h1, h2⟩ := hres
            have hlt : i + 1 < ((resolveCtor mfuel st i).1).ctors.length :=
              (List.getElem?_eq_some.mp hA).1
            have hidem := ih st ((resolveCtor mfuel st i).1) ((resolveCtor mfuel st i).2)
              (Prod.ext_iff.mpr ⟨rfl, rfl⟩)
            have hagree : ∀ j, j ≤ i →
                st2.ctors[j]? = ((resolveCtor mfuel st i).1).ctors[j]? := by
              intro j hj
              rw [← h1]
              exact List.getElem?_set_ne (by omega)
            have hst2 := resolveCtor_stable mfuel i ((resolveCtor mfuel st i).1) st2
              ((resolveCtor mfuel st i).2) hidem hagree
            rw [resolveCtor, hst2]
            dsimp only
            have hsc : st2.ctors[i+1]? = some
                { c with superOptions := (resolveCtor mfuel st i).2, options := v } := by
              rw [← h1]
              dsimp only
              rw [List.getElem?_set_eq_of_lt _ (by simpa using hlt)]
              rw [h2]
            rw [hsc]
            dsimp only
            rw [if_pos rfl]

/-- **C2**: for a lineage node with a super (index `i+1`), if resolving the
super yields a value reference-identical to the node's cached
`superOptions`, then resolving the node takes the fast path: the state is
exactly the state left by the super resolution and the returned value is
the node's current resolved options, unchanged.  Moreover the resolver
cache is correct: a second `resolveCtor` call on the state left by a first
one (no intervening ancestor change) returns the very same resolved-options
reference and leaves the state untouched. -/
theorem resolveCtor_fast_path_and_cache (mfuel : Nat) (st : RState) (i : Nat) :
    (∀ c : CtorNode, st.ctors[i+1]? = some c →
        (resolveCtor mfuel st i).2 = c.superOptions →
        resolveCtor mfuel st (i+1) = ((resolveCtor mfuel st i).1, c.options)) ∧
    (∀ (st2 : RState) (v : JVal), resolveCtor mfuel st i = (st2, v) →
        resolveCtor mfuel st2 i = (st2, v)) := by
  constructor
  · intro c hc heq
    rw [resolveCtor]
    have hsc : ((resolveCtor mfuel st i).1).ctors[i+1]? = some c := by
      rw [resolveCtor_ctors_above mfuel i st (i+1) (by omega)]
      exact hc
    rw [hsc]
    dsimp only
    rw [if_pos heq]
  · exact fun st2 v h => resolveCtor_idem mfuel i st st2 v h

/-- Two-node lineage used to exercise the resolver: a root whose options
live at address 0 and a child whose options live at address 1 and whose
cached `superOptions` already point at the root's options. -/
def c2St : RState :=
  { heap := [.obj none [], .obj none []],
    ctors := [{ options := .ref 0, superOptions := .undef, sealedOptions := .undef,
                extendOptions := .undef, selfFn := 0 },
              { options := .ref 1, superOptions := .ref 0, sealedOptions := .undef,
                extendOptions := .undef, selfFn := 1 }] }

def c2Node : CtorNode :=
  { options := .ref 1, superOptions := .ref 0, sealedOptions := .undef,
    extendOptions := .undef, selfFn := 1 }

theorem resolveCtor_fast_path_and_cache_witness :
    (c2St.ctors[0+1]? = some c2Node ∧
      (resolveCtor 3 c2St 0).2 = c2Node.superOptions ∧
      resolveCtor 3 c2St (0+1) = ((resolveCtor 3 c2St 0).1, c2Node.options)) ∧
    resolveCtor 3 c2St 1 = (c2St, .ref 1) :=
  ⟨⟨by decide, by decide,
    (resolveCtor_fast_path_and_cache 3 c2St 0).1 c2Node (by decide) (by decide)⟩,
   (resolveCtor_fast_path_and_cache 3 c2St 1).2 c2St (.ref 1) (by decide)⟩

theorem forInKeys_nodup (H : Heap) (a : Nat) : (forInKeys H a).Nodup := by
  rw [forInKeys, dedupeHooks_eq_dedupKeepFirst]
  exact dedupKeepFirst_nodup _

theorem aset_ne_nil {α : Type} (l : List (String × α)) (k : String) (v : α) :
    aset l k v ≠ [] := by
  cases l with
  | nil => simp [aset]
  | cons kv rest =>
      obtain ⟨k0, v0⟩ := kv
      by_cases h : k0 = k <;> simp [aset, h]

theorem modfold_not_mem (H : Heap) (la : Nat) (sealed : JVal) (k : String) :
    ∀ (KS : List String), k ∉ KS → ∀ acc,
      alookup (KS.foldl (fun acc k' =>
        if getProp H la k' = getF H sealed k' then acc
        else aset acc k' (getProp H la k')) acc) k = alookup acc k := by
  intro KS
  induction KS with
  | nil => intro _ acc; rfl
  | cons a t ihT =>
      intro hk acc
      have hknt : k ∉ t := fun h => hk (List.mem_cons_of_mem a h)
      have hka : k ≠ a := fun h => hk (h ▸ List.mem_cons_self a t)
      simp only [List.foldl_cons]
      by_cases hd : getProp H la a = getF H sealed a
      · rw [if_pos hd]
        exact ihT hknt acc
      · rw [if_neg hd, ihT hknt _]
        exact alookup_aset_ne acc a k _ (Ne.symm hka)

theorem modfold_mem (H : Heap) (la : Nat) (sealed : JVal) (k : String) :
    ∀ (KS : List String), KS.Nodup → k ∈ KS → ∀ acc,
      alookup (KS.foldl (fun acc k' =>
        if getProp H la k' = getF H sealed k' then acc
        else aset acc k' (getProp H la k')) acc) k =
      if getProp H la k = getF H sealed k then alookup acc k
      else some (getProp H la k) := by
  intro KS
  induction KS with
  | nil => intro _ hk; exact absurd hk (List.not_mem_nil k)
  | cons a t ihT =>
      intro hnd hk acc
      have hat : a ∉ t := (List.nodup_cons.mp hnd).1
      have hndt : t.Nodup := (List.nodup_cons.mp hnd).2
      simp only [List.foldl_cons]
      rcases List.mem_cons.mp hk with hka | hkt
      · subst hka
        have hknt : k ∉ t := hat
        by_cases hd : getProp H la k = getF H sealed k
        · rw [if_pos hd, if_pos hd]
          exact modfold_not_mem H la sealed k t hknt acc
        · rw [if_neg hd, if_neg hd]
          rw [modfold_not_mem H la sealed k t hknt _]
          exact alookup_aset acc k _
      · have hka : k ≠ a := fun h => hat (h ▸ hkt)
        by_cases hd : getProp H la a = getF H sealed a
        · rw [if_pos hd]
          exact ihT hndt hkt acc
        · rw [if_neg hd]
          rw [ihT hndt hkt _]
          by_cases hdk : getProp H la k = getF H sealed k
          · rw [if_pos hdk, if_pos hdk]
            exact alookup_aset_ne acc a k _ (Ne.symm hka)
          · rw [if_neg hdk, if_neg hdk]

theorem modfold_nil_iff (H : Heap) (la : Nat) (sealed : JVal) :
    ∀ (KS : List String),
      (KS.foldl (fun acc k' =>
        if getProp H la k' = getF H sealed k' then acc
        else aset acc k' (getProp H la k')) [] = []) ↔
      ∀ k ∈ KS, getProp H la k = getF H sealed k := by
  have hne : ∀ (KS : List String) (acc : List (String × JVal)), acc ≠ [] →
      KS.foldl (fun acc k' =>
        if getProp H la k' = getF H sealed k' then acc
        else aset acc k' (getProp H la k')) acc ≠ [] := by
    intro KS
    induction KS with
    | nil => intro acc h; exact h
    | cons a t ihT =>
        intro acc h
        simp only [List.foldl_cons]
        by_cases hd : getProp H la a = getF H sealed a
        · rw [if_pos hd]; exact ihT acc h
        · rw [if_neg hd]; exact ihT _ (aset_ne_nil acc a _)
  intro KS
  induction KS with
  | nil => simp
  | cons a t ihT =>
      simp only [List.foldl_cons]
      constructor
      · intro hfold
        by_cases hd : getProp H la a = getF H sealed a
        · rw [if_pos hd] at hfold
          intro k hkm
          rcases List.mem_cons.mp hkm with hka | hkt
          · exact hka ▸ hd
          · exact (ihT.mp hfold) k hkt
        · rw [if_neg hd] at hfold
          exact absurd hfold (hne t _ (aset_ne_nil [] a _))
      · intro hall
        have hd := hall a (List.mem_cons_self a t)
        rw [if_pos hd]
        exact ihT.mpr (fun k hk => hall k (List.mem_cons_of_mem a hk))

/-- `resolveModifiedOptions` returns `undefined` exactly when no enumerable
field of the latest options differs, by reference, from the sealed
snapshot's corresponding field. -/
theorem resolveModifiedOptionsH_none_iff (H : Heap) (la : Nat) (sealed : JVal) :
    resolveModifiedOptionsH H (.ref la) sealed = none ↔
      ∀ k ∈ forInKeys H la, getProp H la k = getF H sealed k := by
  rw [resolveModifiedOptionsH]
  by_cases he : (forInKeys H la).foldl (fun acc k =>
      if getProp H la k = getF H sealed k then acc
      else aset acc k (getProp H la k)) [] = []
  · rw [if_pos (by simp [he])]
    simp only [true_iff]
    exact (modfold_nil_iff H la sealed _).mp he
  · rw [if_neg (by simp only [List.isEmpty_iff]; exact he)]
    constructor
    · intro hc
      exact absurd hc (by simp)
    · intro hall
      exact absurd ((modfold_nil_iff H la sealed _).mpr hall) he

/-- When `resolveModifiedOptions` does return a record of late edits, that
record holds, per key, exactly the enumerable fields of the latest options
whose value differs by reference from the sealed snapshot, bound to the
latest value. -/
theorem resolveModifiedOptionsH_some_spec (H : Heap) (la : Nat) (sealed : JVal)
    (ml : List (String × JVal))
    (h : resolveModifiedOptionsH H (.ref la) sealed = some ml) (k : String) :
    alookup ml k =
      if k ∈ forInKeys H la ∧ getProp H la k ≠ getF H sealed k
      then some (getProp H la k) else none := by
  rw [resolveModifiedOptionsH] at h
  by_cases he : ((forInKeys H la).foldl (fun acc k =>
      if getProp H la k = getF H sealed k then acc
      else aset acc k (getProp H la k)) []).isEmpty
  · rw [if_pos he] at h
    exact absurd h (by simp)
  · rw [if_neg he] at h
    have hml := Option.some.inj h
    subst hml
    by_cases hk : k ∈ forInKeys H la
    · rw [modfold_mem H la sealed k _ (forInKeys_nodup H la) hk []]
      by_cases hd : getProp H la k = getF H sealed k
      · rw [if_pos hd, if_neg (by simp [hd])]
        rfl
      · rw [if_neg hd, if_pos ⟨hk, hd⟩]
    · rw [modfold_not_mem H la sealed k _ hk []]
      rw [if_neg (fun hc => hk hc.1)]
      rfl

theorem modfold_keys_nodup (H : Heap) (la : Nat) (sealed : JVal) :
    ∀ (KS : List String) (acc : List (String × JVal)), (akeys acc).Nodup →
      (akeys (KS.foldl (fun acc k' =>
        if getProp H la k' = getF H sealed k' then acc
        else aset acc k' (getProp H la k')) acc)).Nodup := by
  intro KS
  induction KS with
  | nil => intro acc h; exact h
  | cons a t ihT =>
      intro acc h
      simp only [List.foldl_cons]
      by_cases hd : getProp H la a = getF H sealed a
      · rw [if_pos hd]; exact ihT acc h
      · rw [if_neg hd]; exact ihT _ (aset_preserves_nodup acc a _ h)

theorem resolveModifiedOptionsH_keys_nodup (H : Heap) (la : Nat) (sealed : JVal)
    (ml : List (String × JVal))
    (h : resolveModifiedOptionsH H (.ref la) sealed = some ml) :
    (akeys ml).Nodup := by
  rw [resolveModifiedOptionsH] at h
  by_cases he : ((forInKeys H la).foldl (fun acc k =>
      if getProp H la k = getF H sealed k then acc
      else aset acc k (getProp H la k)) []).isEmpty
  · rw [if_pos he] at h
    exact absurd h (by simp)
  · rw [if_neg he] at h
    rw [← Option.some.inj h]
    exact modfold_keys_nodup H la sealed _ [] (by simp [akeys])

theorem setOwnfold_fields (ml : List (String × JVal)) :
    ∀ (H : Heap) (ea : Nat) (p : Option Nat) (f : List (String × JVal)),
      hGet H ea = some (.obj p f) →
      hGet (ml.foldl (fun h kv => setOwn h ea kv.1 kv.2) H) ea =
        some (.obj p (ml.foldl (fun acc kv => aset acc kv.1 kv.2) f)) ∧
      ∀ b, b ≠ ea → hGet (ml.foldl (fun h kv => setOwn h ea kv.1 kv.2) H) b = hGet H b := by
  induction ml with
  | nil => intro H ea p f h; exact ⟨h, fun b _ => rfl⟩
  | cons kv t ihT =>
      intro H ea p f h
      obtain ⟨k, v⟩ := kv
      simp only [List.foldl_cons]
      have h1 : hGet (setOwn H ea k v) ea = some (.obj p (aset f k v)) :=
        hGet_setOwn_self H ea k v p f h
      obtain ⟨hg, hfr⟩ := ihT (setOwn H ea k v) ea p (aset f k v) h1
      refine ⟨hg, fun b hb => ?_⟩
      rw [hfr b hb]
      exact hGet_setOwn_ne H ea b k v hb

theorem alookup_asetfold (ml : List (String × JVal)) :
    ∀ (f : List (String × JVal)) (k : String), (akeys ml).Nodup →
      alookup (ml.foldl (fun acc kv => aset acc kv.1 kv.2) f) k =
        match alookup ml k with
        | some v => some v
        | none => alookup f k := by
  induction ml with
  | nil => intro f k _; rfl
  | cons kv t ihT =>
      intro f k hnd
      obtain ⟨k0, v0⟩ := kv
      have hnd' : (k0 :: akeys t).Nodup := hnd
      have hk0t : k0 ∉ akeys t := (List.nodup_cons.mp hnd').1
      have hndt : (akeys t).Nodup := (List.nodup_cons.mp hnd').2
      simp only [List.foldl_cons]
      rw [ihT (aset f k0 v0) k hndt]
      by_cases hk : k = k0
      · subst hk
        have h1 : alookup t k = none :=
          alookup_eq_none_of_not_mem_akeys t k hk0t
        have h2 : alookup ((k, v0) :: t) k = some v0 := by simp [alookup]
        rw [h1, h2]
        exact alookup_aset f k v0
      · have h2 : alookup ((k0, v0) :: t) k = alookup t k := by
          simp only [alookup]
          rw [if_neg (Ne.symm hk)]
        rw [h2]
        cases ht : alookup t k with
        | none => exact alookup_aset_ne f k0 k v0 (Ne.symm hk)
        | some w => rfl

/-- **C3 (amended)**: for a lineage node (index `i+1`) whose freshly
resolved super differs by reference from its cached `superOptions`, the
resolver (a) computes the late-edit record as exactly the enumerable
fields of the node's current resolved options whose values differ by
reference from the corresponding fields of `sealedOptions` (absent when
nothing differs), (b) folds those late edits into `extendOptions` in
place, overwriting matching keys and touching no other heap cell, and
(c) recomputes the resolved options as
`mergeOptions(freshSuper, extendOptions)` and re-caches
`superOptions := freshSuper` and the new resolved options on the node —
while leaving the node's `sealedOptions` (and its `extendOptions`
pointer) exactly as they were: the resolver never updates
`sealedOptions` to a copy of the recomputed options. -/
theorem resolveCtor_slow_path (mfuel : Nat) (st : RState) (i : Nat) (c : CtorNode)
    (H0 : Heap) (sup : JVal) (la ea : Nat) (pe : Option Nat)
    (fe : List (String × JVal))
    (hH0 : ((resolveCtor mfuel st i).1).heap = H0)
    (hsup : (resolveCtor mfuel st i).2 = sup)
    (hc : ((resolveCtor mfuel st i).1).ctors[i+1]? = some c)
    (hne : sup ≠ c.superOptions)
    (hla : c.options = .ref la)
    (hea : c.extendOptions = .ref ea)
    (hobj : hGet H0 ea = some (.obj pe fe)) :
    ((resolveModifiedOptionsH H0 c.options c.sealedOptions = none ↔
        ∀ k ∈ forInKeys H0 la, getProp H0 la k = getF H0 c.sealedOptions k) ∧
      ∀ ml, resolveModifiedOptionsH H0 c.options c.sealedOptions = some ml →
        ∀ k, alookup ml k =
          if k ∈ forInKeys H0 la ∧ getProp H0 la k ≠ getF H0 c.sealedOptions k
          then some (getProp H0 la k) else none) ∧
    (∀ ml, resolveModifiedOptionsH H0 c.options c.sealedOptions = some ml →
        hGet (foldModifiedH H0 c.extendOptions (some ml)) ea =
          some (.obj pe (ml.foldl (fun acc kv => aset acc kv.1 kv.2) fe)) ∧
        (∀ k, alookup (ml.foldl (fun acc kv => aset acc kv.1 kv.2) fe) k =
            match alookup ml k with
            | some v => some v
            | none => alookup fe k) ∧
        ∀ b, b ≠ ea →
          hGet (foldModifiedH H0 c.extendOptions (some ml)) b = hGet H0 b) ∧
    (resolveCtor mfuel st (i+1)).2 =
      (mergeOptionsH mfuel
        (foldModifiedH H0 c.extendOptions
          (resolveModifiedOptionsH H0 c.options c.sealedOptions))
        sup c.extendOptions false).2 ∧
    ((resolveCtor mfuel st (i+1)).1).ctors[i+1]? =
      some { c with superOptions := sup,
                    options := (mergeOptionsH mfuel
                      (foldModifiedH H0 c.extendOptions
                        (resolveModifiedOptionsH H0 c.options c.sealedOptions))
                      sup c.extendOptions false).2 } := by
  subst hH0
  subst hsup
  have hlt : i + 1 < ((resolveCtor mfuel st i).1).ctors.length :=
    (List.getElem?_eq_some.mp hc).1
  refine ⟨⟨?_, ?_⟩, ?_, ?_, ?_⟩
  · rw [hla]
    exact resolveModifiedOptionsH_none_iff _ la c.sealedOptions
  · intro ml h k
    rw [hla] at h
    exact resolveModifiedOptionsH_some_spec _ la c.sealedOptions ml h k
  · intro ml h
    rw [hla] at h
    have hnd := resolveModifiedOptionsH_keys_nodup _ la c.sealedOptions ml h
    rw [hea]
    have hfold : foldModifiedH ((resolveCtor mfuel st i).1).heap (.ref ea) (some ml) =
        ml.foldl (fun h kv => setOwn h ea kv.1 kv.2)
          ((resolveCtor mfuel st i).1).heap := rfl
    rw [hfold]
    obtain ⟨hg, hfr⟩ := setOwnfold_fields ml ((resolveCtor mfuel st i).1).heap ea pe fe hobj
    exact ⟨hg, fun k => alookup_asetfold ml fe k hnd, hfr⟩
  · rw [resolveCtor]
    rw [hc]
    dsimp only
    rw [if_neg hne]
  · rw [resolveCtor]
    rw [hc]
    dsimp only
    rw [if_neg hne]
    dsimp only
    rw [List.getElem?_set_eq_of_lt _ (by simpa using hlt)]

/-- Two-node lineage forcing the slow path: the child's cached
`superOptions` is `undefined` while the root resolves to address 0; the
child's current options live at address 1, its sealed snapshot at
address 2, and its extend options (carrying `foo`) at address 3. -/
def c3Heap : Heap :=
  [.obj none [], .obj none [], .obj none [], .obj none [("foo", .str "x")]]

def c3Node : CtorNode :=
  { options := .ref 1, superOptions := .undef, sealedOptions := .ref 2,
    extendOptions := .ref 3, selfFn := 1 }

def c3St : RState :=
  { heap := c3Heap,
    ctors := [{ options := .ref 0, superOptions := .undef, sealedOptions := .undef,
                extendOptions := .undef, selfFn := 0 },
              c3Node] }

/-- **C3 counterexample**: after a slow-path resolve, the node's
`sealedOptions` still points at the pre-existing sealed snapshot
(address 2), which lacks the `foo` field that the freshly recomputed
resolved options (address 4) carry — so `sealedOptions` was not updated
to a shallow copy of the recomputed resolved options, contradicting the
claim's final update step. -/
theorem resolveCtor_counterexample_C3 :
    ((resolveCtor 3 c3St 1).1).ctors[1]?.map CtorNode.sealedOptions =
      some (.ref 2) ∧
    c3St.ctors[1]?.map CtorNode.sealedOptions = some (.ref 2) ∧
    (resolveCtor 3 c3St 1).2 = .ref 4 ∧
    getProp ((resolveCtor 3 c3St 1).1).heap 4 "foo" = .str "x" ∧
    getProp ((resolveCtor 3 c3St 1).1).heap 2 "foo" = .undef := by decide

theorem resolveCtor_slow_path_witness :
    (JVal.ref 0 ≠ c3Node.superOptions) ∧
    (((resolveModifiedOptionsH c3Heap c3Node.options c3Node.sealedOptions = none ↔
        ∀ k ∈ forInKeys c3Heap 1,
          getProp c3Heap 1 k = getF c3Heap c3Node.sealedOptions k) ∧
      ∀ ml, resolveModifiedOptionsH c3Heap c3Node.options c3Node.sealedOptions = some ml →
        ∀ k, alookup ml k =
          if k ∈ forInKeys c3Heap 1 ∧
              getProp c3Heap 1 k ≠ getF c3Heap c3Node.sealedOptions k
          then some (getProp c3Heap 1 k) else none) ∧
    (∀ ml, resolveModifiedOptionsH c3Heap c3Node.options c3Node.sealedOptions = some ml →
        hGet (foldModifiedH c3Heap c3Node.extendOptions (some ml)) 3 =
          some (.obj none (ml.foldl (fun acc kv => aset acc kv.1 kv.2)
            [("foo", .str "x")])) ∧
        (∀ k, alookup (ml.foldl (fun acc kv => aset acc kv.1 kv.2)
              [("foo", .str "x")]) k =
            match alookup ml k with
            | some v => some v
            | none => alookup [("foo", JVal.str "x")] k) ∧
        ∀ b, b ≠ 3 →
          hGet (foldModifiedH c3Heap c3Node.extendOptions (some ml)) b = hGet c3Heap b) ∧
    (resolveCtor 3 c3St (0+1)).2 =
      (mergeOptionsH 3
        (foldModifiedH c3Heap c3Node.extendOptions
          (resolveModifiedOptionsH c3Heap c3Node.options c3Node.sealedOptions))
        (.ref 0) c3Node.extendOptions false).2 ∧
    ((resolveCtor 3 c3St (0+1)).1).ctors[0+1]? =
      some { c3Node with
               superOptions := JVal.ref 0,
               options := (mergeOptionsH 3
                 (foldModifiedH c3Heap c3Node.extendOptions
                   (resolveModifiedOptionsH c3Heap c3Node.options c3Node.sealedOptions))
                 (.ref 0) c3Node.extendOptions false).2 }) :=
  ⟨by decide,
   resolveCtor_slow_path 3 c3St 0 c3Node c3Heap (.ref 0) 1 3 none
     [("foo", .str "x")] (by decide) (by decide) (by decide) (by decide)
     (by decide) (by decide) (by decide)⟩
